import Mathlib

/-! # ai_arcade: config-line parser, game loop engine, Tic-Tac-Toe, Breakout

A shallow embedding of `core/dsl_parser.js`, `core/game_engine.js`,
`games/example-tictactoe/game.js` and `games/example-breakout/game.js`, with the
properties proved about them.

JavaScript strings are modelled as lists of characters.
-/

namespace AiArcade

/-! ## Strings (`String.prototype` methods used by the parser) -/

/-- A JavaScript string, as the list of its characters. -/
abbrev Str := List Char

/-- The characters removed by `String.prototype.trim`: the ECMAScript
`WhiteSpace` and `LineTerminator` code points. -/
def isTrimChar (c : Char) : Bool :=
  let n := c.toNat
  n == 0x09 || n == 0x0A || n == 0x0B || n == 0x0C || n == 0x0D || n == 0x20 ||
  n == 0xA0 || n == 0x1680 || (0x2000 ≤ n && n ≤ 0x200A) || n == 0x2028 ||
  n == 0x2029 || n == 0x202F || n == 0x205F || n == 0x3000 || n == 0xFEFF

/-- `s.trimStart()`. -/
def trimStart (s : Str) : Str := s.dropWhile isTrimChar

/-- `s.trimEnd()`. -/
def trimEnd (s : Str) : Str := (s.reverse.dropWhile isTrimChar).reverse

/-- `s.trim()`. -/
def trim (s : Str) : Str := trimEnd (trimStart s)

/-- `s.startsWith(c)` for a one-character string `c`. -/
def startsWith (c : Char) : Str → Bool
  | [] => false
  | d :: _ => d == c

/-- `s.split(sep)` for a one-character separator: the pieces between the
occurrences of `sep`; the result always has at least one piece. -/
def split (sep : Char) : Str → List Str
  | [] => [[]]
  | c :: cs =>
    if c = sep then [] :: split sep cs
    else (c :: (split sep cs).headD []) :: (split sep cs).tail

/-- `parts.join(sep)` for a one-character separator. -/
def join (sep : Char) : List Str → Str
  | [] => []
  | [p] => p
  | p :: q :: ps => p ++ sep :: join sep (q :: ps)

/-! ## The `config` object -/

/-- The own properties of the object `config`, each name once, in order of
creation (the order in which the object enumerates them is not modelled). -/
abbrev Config := List (Str × Str)

/-- The property name `__proto__`. -/
def protoKey : Str := ['_', '_', 'p', 'r', 'o', 't', 'o', '_', '_']

/-- Create or overwrite the own property `key`. -/
def setOwn : Config → Str → Str → Config
  | [], key, value => [(key, value)]
  | (k, v) :: rest, key, value =>
    if k = key then (key, value) :: rest else (k, v) :: setOwn rest key value

/-- The assignment `config[key] = value` on an object created by `{}`, with a
string `value`. The name `__proto__` resolves to the accessor inherited from
`Object.prototype`, whose setter ignores a value that is neither an object nor
`null`: that assignment creates no property. Every other name creates or
overwrites an own property. -/
def assign (config : Config) (key value : Str) : Config :=
  if key = protoKey then config else setOwn config key value

/-- The value of the own property `key`, if `config` has one. -/
def getOwn (config : Config) (key : Str) : Option Str :=
  (config.find? (fun e => e.1 == key)).map Prod.snd

/-! ## `parseDSL` (core/dsl_parser.js) -/

/-- The body of the `for` loop of `parseDSL`, for one `line`. -/
def parseLine (config : Config) (line : Str) : Config :=
  let line := trim line
  if line = [] || startsWith '#' line then config
  else
    let parts := split ':' line
    if parts.length < 2 then config
    else
      let key := trim (parts.headD [])
      let value := trim (join ':' (parts.drop 1))
      assign config key value

/-- `parseDSL(dslText)`. -/
def parseDSL (dslText : Str) : Config :=
  (split '\n' dslText).foldl parseLine []

/-! ### Vocabulary of the parser's properties -/

/-- The text of `s` before its first `sep` (all of `s` when it has none). -/
def beforeFirst (sep : Char) (s : Str) : Str := s.takeWhile (fun c => c != sep)

/-- The text of `s` after its first `sep` (empty when it has none). -/
def afterFirst (sep : Char) (s : Str) : Str := (s.dropWhile (fun c => c != sep)).drop 1

/-- Every character of `s` is removed by `trim`. -/
def AllTrim (s : Str) : Prop := ∀ c ∈ s, isTrimChar c = true

/-- A blank line: empty, or whitespace only. -/
def isBlank (line : Str) : Bool := line.all isTrimChar

/-- A comment line: its first non-whitespace character is `#`. -/
def isComment (line : Str) : Bool := (line.dropWhile isTrimChar).head? == some '#'

/-- A line with at least one colon. -/
def hasColon (line : Str) : Bool := line.any (fun c => c == ':')

/-- A line that is blank, a comment, or without a colon. -/
def isSkipped (line : Str) : Bool := isBlank line || isComment line || !hasColon line

/-- A line that is neither blank nor a comment. -/
def isContent (line : Str) : Bool := !isBlank line && !isComment line

/-- The lines of `text` that are neither blank nor comments, in order. -/
def contentLines (text : Str) : List Str := (split '\n' text).filter isContent

/-- The trimmed text of `line` before its first colon. -/
def lineKey (line : Str) : Str := trim (beforeFirst ':' line)

/-- The trimmed text of `line` after its first colon. -/
def lineValue (line : Str) : Str := trim (afterFirst ':' line)

/-- The `text` with its blank lines, comment lines and colon-free lines removed. -/
def removeSkipped (text : Str) : Str :=
  join '\n' ((split '\n' text).filter (fun l => !isSkipped l))

/-! ## `GameEngine` (core/game_engine.js)

Time stamps have an arbitrary type `T` with a subtraction; the fields a subclass
adds to the engine have type `G`. The host's frame scheduler is part of the
state: `pending` counts the requests made with `requestAnimationFrame` that the
host has not run yet, `scheduled` counts all requests made so far, and `trace`
records the hook invocations. -/

/-- The canvas element found by `document.getElementById`. -/
structure Canvas where
  width : Nat
  height : Nat
  deriving DecidableEq, Repr

/-- What `canvas.getContext('2d')` returns when it is not `null`. -/
structure Context2D where
  canvas : Canvas
  deriving DecidableEq, Repr

/-- An element of the page: a canvas, with what its `getContext('2d')` returns
(`none` is `null`), or an element of another kind, which has no method
`getContext`. -/
inductive Element where
  | canvas (canvas : Canvas) (context2d : Option Context2D)
  | other (tagName : String)
  deriving DecidableEq, Repr

/-- The lookup `document.getElementById`; `none` is the `null` returned for an
id no element has. -/
abbrev Document := String → Option Element

/-- What the constructor throws: `new Error(message)`, or the `TypeError` of a
call of `getContext` on an element that has no such method. -/
inductive EngineError where
  | error (message : String)
  | typeError
  deriving DecidableEq, Repr

/-- A call of a public method of the engine, made from inside a hook. -/
inductive EngineCall where
  | start
  | stop
  deriving DecidableEq, Repr

/-- An invocation of a hook, as recorded in the trace. -/
inductive HookEvent (T : Type) where
  | update (dt : T)
  | render
  deriving DecidableEq, Repr

/-- The overridable methods `update(dt)` and `render()`: each returns normally,
with the new fields of the subclass and the calls it made on the engine, in
order. A hook reaches the engine through `start()` and `stop()` only, as the
hooks of the base class and of `BreakoutGame` do. -/
structure Hooks (T G : Type) where
  update : T → G → G × List EngineCall
  render : G → G × List EngineCall

/-- The hooks of the base class: empty bodies. -/
def baseHooks (T G : Type) : Hooks T G where
  update := fun _ g => (g, [])
  render := fun g => (g, [])

/-- The engine object together with the host's scheduler. -/
structure GameEngine (T G : Type) where
  canvas : Canvas
  ctx : Option Context2D
  lastUpdateTime : T
  running : Bool
  game : G
  pending : Nat
  scheduled : Nat
  trace : List (HookEvent T)
  deriving DecidableEq

/-- `requestAnimationFrame(this.gameLoop)`. -/
def requestAnimationFrame {T G : Type} (e : GameEngine T G) : GameEngine T G :=
  { e with pending := e.pending + 1, scheduled := e.scheduled + 1 }

/-- `new GameEngine(canvasId)`, with `now` the value of `performance.now()` and
`game` the fields of the subclass. The element found is stored in `canvas`; the
call `this.canvas.getContext('2d')` throws a `TypeError` on an element that is
not a canvas. -/
def GameEngine.new {T G : Type} (document : Document) (now : T) (game : G)
    (canvasId : String) : Except EngineError (GameEngine T G) :=
  match document canvasId with
  | none => .error (EngineError.error ("Canvas not found: " ++ canvasId))
  | some (Element.other _) => .error EngineError.typeError
  | some (Element.canvas canvas context2d) =>
    .ok { canvas := canvas, ctx := context2d, lastUpdateTime := now, running := false,
          game := game, pending := 0, scheduled := 0, trace := [] }

/-- `start()`. -/
def GameEngine.start {T G : Type} (e : GameEngine T G) : GameEngine T G :=
  requestAnimationFrame { e with running := true }

/-- `stop()`. -/
def GameEngine.stop {T G : Type} (e : GameEngine T G) : GameEngine T G :=
  { e with running := false }

/-- One call made by a hook. -/
def GameEngine.call {T G : Type} (e : GameEngine T G) : EngineCall → GameEngine T G
  | .start => e.start
  | .stop => e.stop

/-- The calls made by a hook, in order. -/
def GameEngine.calls {T G : Type} (e : GameEngine T G) (cs : List EngineCall) :
    GameEngine T G :=
  cs.foldl GameEngine.call e

/-- `this.update(dt)`, dispatched to the hook. -/
def GameEngine.update {T G : Type} (h : Hooks T G) (e : GameEngine T G) (dt : T) :
    GameEngine T G :=
  let r := h.update dt e.game
  GameEngine.calls { e with game := r.1, trace := e.trace ++ [HookEvent.update dt] } r.2

/-- `this.render()`, dispatched to the hook. -/
def GameEngine.render {T G : Type} (h : Hooks T G) (e : GameEngine T G) : GameEngine T G :=
  let r := h.render e.game
  GameEngine.calls { e with game := r.1, trace := e.trace ++ [HookEvent.render] } r.2

/-- `gameLoop(timestamp)`. -/
def GameEngine.gameLoop {T G : Type} [Sub T] (h : Hooks T G) (e : GameEngine T G)
    (timestamp : T) : GameEngine T G :=
  let dt := timestamp - e.lastUpdateTime
  let e := { e with lastUpdateTime := timestamp }
  let e := e.update h dt
  let e := e.render h
  if e.running then requestAnimationFrame e else e

/-- Successive invocations `gameLoop(t)` for the `timestamps`, in order. -/
def GameEngine.frames {T G : Type} [Sub T] (h : Hooks T G) (e : GameEngine T G)
    (timestamps : List T) : GameEngine T G :=
  timestamps.foldl (GameEngine.gameLoop h) e

/-- The calls the hooks make during `gameLoop(timestamp)`: those of `update`,
then those of `render`. -/
def hookCalls {T G : Type} [Sub T] (h : Hooks T G) (e : GameEngine T G) (timestamp : T) :
    List EngineCall :=
  let u := h.update (timestamp - e.lastUpdateTime) e.game
  u.2 ++ (h.render u.1).2

/-- The value of `running` after the calls `cs`, when it was `b` before. -/
def runningAfter (b : Bool) : List EngineCall → Bool
  | [] => b
  | .start :: cs => runningAfter true cs
  | .stop :: cs => runningAfter false cs

/-- The fields of the subclass after the hooks of one frame callback have run
on them: `update(dt)`, then `render()`. -/
def hooksOnce {T G : Type} (h : Hooks T G) (dt : T) (game : G) : G :=
  (h.render (h.update dt game).1).1

/-- The fields of the subclass after the hooks of the frame callbacks at the
`timestamps` have run on them, the update before the first being at `last`:
each `update` is called with the time since the update before it. -/
def hooksOver {T G : Type} [Sub T] (h : Hooks T G) (last : T) (game : G) : List T → G
  | [] => game
  | t :: ts => hooksOver h t (hooksOnce h (t - last) game) ts

/-- The `dt` arguments of the `update` invocations of a trace, in order. -/
def deltaTimes {T : Type} : List (HookEvent T) → List T
  | [] => []
  | .update dt :: evs => dt :: deltaTimes evs
  | .render :: evs => deltaTimes evs

/-- The hook invocations of frame callbacks whose `update` received `dts`. -/
def frameEvents {T : Type} : List T → List (HookEvent T)
  | [] => []
  | dt :: dts => .update dt :: .render :: frameEvents dts

/-- What can happen to an engine: a call of `start()` or `stop()` from outside
a frame callback, or the host running a pending frame callback. -/
inductive Action (T : Type) where
  | start
  | stop
  | frame (timestamp : T)
  deriving DecidableEq, Repr

/-- The host runs a pending frame callback: it takes the request out of the
pending ones and calls `gameLoop(timestamp)`; `none` when nothing is pending. -/
def fire {T G : Type} [Sub T] (h : Hooks T G) (e : GameEngine T G) (timestamp : T) :
    Option (GameEngine T G) :=
  if e.pending = 0 then none
  else some (GameEngine.gameLoop h { e with pending := e.pending - 1 } timestamp)

/-- One action. -/
def step {T G : Type} [Sub T] (h : Hooks T G) (e : GameEngine T G) :
    Action T → Option (GameEngine T G)
  | .start => some e.start
  | .stop => some e.stop
  | .frame timestamp => fire h e timestamp

/-- A sequence of actions; `none` when one of them is impossible. -/
def run {T G : Type} [Sub T] (h : Hooks T G) (e : GameEngine T G) :
    List (Action T) → Option (GameEngine T G)
  | [] => some e
  | a :: as => (step h e a).bind (fun e' => run h e' as)

/-- One action, under the discipline that `start()` is called only while no
frame callback is pending. -/
def stepIdleStart {T G : Type} [Sub T] (h : Hooks T G) (e : GameEngine T G) :
    Action T → Option (GameEngine T G)
  | .start => if e.pending = 0 then some e.start else none
  | .stop => some e.stop
  | .frame timestamp => fire h e timestamp

/-- A sequence of actions under the discipline of `stepIdleStart`. -/
def runIdleStart {T G : Type} [Sub T] (h : Hooks T G) (e : GameEngine T G) :
    List (Action T) → Option (GameEngine T G)
  | [] => some e
  | a :: as => (stepIdleStart h e a).bind (fun e' => runIdleStart h e' as)

/-! ### Concrete engines, for the instances of the properties -/

/-- A page with a canvas of id `gameCanvas` and a `div` of id `board`. -/
def examplePage : Document :=
  fun id =>
    if id = "gameCanvas" then
      some (Element.canvas { width := 480, height := 320 }
        (some { canvas := { width := 480, height := 320 } }))
    else if id = "board" then some (Element.other "div")
    else none

/-- An engine that was started at time `0` and has its first frame pending. -/
def startedEngine : GameEngine Int Unit :=
  { canvas := { width := 480, height := 320 },
    ctx := some { canvas := { width := 480, height := 320 } }, lastUpdateTime := 0,
    running := true, game := (), pending := 1, scheduled := 1, trace := [] }

/-- Hooks whose `update` calls `start()`. -/
def restartingHooks : Hooks Int Unit where
  update := fun _ g => (g, [EngineCall.start])
  render := fun g => (g, [])

/-- Hooks of a subclass that keeps, as its only field, the list of the values
of `dt` its `update` was called with. -/
def recordingHooks (T : Type) : Hooks T (List T) where
  update := fun dt g => (g ++ [dt], [])
  render := fun g => (g, [])

/-- Hooks of a subclass that keeps, as its only field, the list of the calls
of its `update` and `render`, in order. -/
def loggingHooks (T : Type) : Hooks T (List (HookEvent T)) where
  update := fun dt g => (g ++ [HookEvent.update dt], [])
  render := fun g => (g ++ [HookEvent.render], [])

/-- Hooks whose `update` calls `stop()`. -/
def stoppingHooks : Hooks Int Unit where
  update := fun _ g => (g, [EngineCall.stop])
  render := fun g => (g, [])

/-! ## Tic-Tac-Toe (games/example-tictactoe/game.js) -/

/-- The constant `size`. -/
def size : Nat := 3

/-- The array `board`: rows of cells, each cell a string. -/
abbrev Board := List (List String)

/-- `board[i][j]`; `none` is `undefined`. -/
def cellAt (board : Board) (i j : Nat) : Option String :=
  (board.get? i).bind (fun row => row.get? j)

/-- `checkWinner(player)`: the rows, then the columns, then the two diagonals.
The board has `size` rows, as the program builds it; `board[i]` is read as the
empty row where the board has no row `i`. -/
def checkWinner (board : Board) (player : String) : Bool :=
  if (List.range size).any
      (fun i => (board.getD i []).all (fun cell => cell == player)) then true
  else if (List.range size).any
      (fun j => (List.range size).all (fun i => cellAt board i j == some player)) then true
  else
    let diag1 := (List.range size).all (fun i => cellAt board i i == some player)
    let diag2 :=
      (List.range size).all (fun i => cellAt board i (size - 1 - i) == some player)
    diag1 || diag2

/-! ## Tic-Tac-Toe: the click handler (games/example-tictactoe/game.js) -/

/-- The variables `board`, `currentPlayer` and `gameOver` of the game. -/
structure TicTacToe where
  board : Board
  currentPlayer : String
  gameOver : Bool
  deriving DecidableEq, Repr

/-- The state the script starts with: an empty board, `X` to play. -/
def TicTacToe.initial : TicTacToe :=
  { board := List.replicate size (List.replicate size ""), currentPlayer := "X",
    gameOver := false }

/-- The assignment `board[row][col] = value`, on a cell the board has. -/
def setCell (board : Board) (row col : Nat) (value : String) : Board :=
  board.modify (fun r => r.set col value) row

/-- `isBoardFull()`. -/
def isBoardFull (board : Board) : Bool :=
  (List.range size).all (fun i => (List.range size).all (fun j => cellAt board i j != some ""))

/-- `onCellClick(e)` for a click on the cell that carries `row` and `col`. The
calls of `alert` and `renderBoard` change none of the three variables. On a cell
the board does not have the read `board[row][col]` is not the empty string, or
throws: the variables stay as they are. -/
def onCellClick (s : TicTacToe) (row col : Nat) : TicTacToe :=
  if s.gameOver then s
  else if cellAt s.board row col != some "" then s
  else
    let board := setCell s.board row col s.currentPlayer
    if checkWinner board s.currentPlayer then
      { board := board, currentPlayer := s.currentPlayer, gameOver := true }
    else if isBoardFull board then
      { board := board, currentPlayer := s.currentPlayer, gameOver := true }
    else
      { board := board, currentPlayer := if s.currentPlayer = "X" then "O" else "X",
        gameOver := false }

/-- A sequence of clicks, each on the cell `(row, col)`. -/
def clickAll (s : TicTacToe) (clicks : List (Nat × Nat)) : TicTacToe :=
  clicks.foldl (fun s c => onCellClick s c.1 c.2) s

/-- The number of cells of the board that hold `mark`. -/
def countMark (board : Board) (mark : String) : Nat :=
  (board.map (fun row => row.count mark)).sum

/-! ## Breakout (games/example-breakout/game.js)

Numbers are rationals: the arithmetic is exact, and the properties proved on
these definitions are properties of the game in exact arithmetic. -/

/-- The object `paddle`. -/
structure Paddle where
  width : ℚ
  height : ℚ
  x : ℚ
  y : ℚ
  speed : ℚ
  deriving DecidableEq

/-- The object `ball`. -/
structure Ball where
  x : ℚ
  y : ℚ
  radius : ℚ
  speed : ℚ
  dx : ℚ
  dy : ℚ
  deriving DecidableEq

/-- The object `brickConfig`. -/
structure BrickConfig where
  rowCount : Nat
  colCount : Nat
  width : ℚ
  height : ℚ
  padding : ℚ
  offsetTop : ℚ
  offsetLeft : ℚ
  deriving DecidableEq

/-- An element of `bricks`. -/
structure Brick where
  x : ℚ
  y : ℚ
  status : Nat
  deriving DecidableEq

/-- The fields `BreakoutGame` adds to the engine. -/
structure Breakout where
  canvasWidth : ℚ
  canvasHeight : ℚ
  paddle : Paddle
  ball : Ball
  brickConfig : BrickConfig
  bricks : List (List Brick)
  rightPressed : Bool
  leftPressed : Bool
  deriving DecidableEq

/-- The fields set by the constructor of `BreakoutGame`, for the `canvas` found. -/
def BreakoutGame.init (canvas : Canvas) : Breakout :=
  { canvasWidth := canvas.width
    canvasHeight := canvas.height
    paddle :=
      { width := 75, height := 10, x := ((canvas.width : ℚ) - 75) / 2,
        y := (canvas.height : ℚ) - 20, speed := 300 }
    ball :=
      { x := (canvas.width : ℚ) / 2, y := (canvas.height : ℚ) - 30, radius := 10,
        speed := 250, dx := 150, dy := -150 }
    brickConfig :=
      { rowCount := 3, colCount := 5, width := 75, height := 20, padding := 10,
        offsetTop := 30, offsetLeft := 30 }
    bricks :=
      (List.range 3).map (fun (r : Nat) =>
        (List.range 5).map (fun (c : Nat) =>
          ({ x := (c : ℚ) * (75 + 10) + 30, y := (r : ℚ) * (20 + 10) + 30,
             status := 1 } : Brick)))
    rightPressed := false
    leftPressed := false }

/-- The section `Update Paddle Position` of `update`, with `delta = dt / 1000`,
in exact arithmetic; `movePaddleDouble` is the same section in the arithmetic of
the source. -/
def movePaddle (delta : ℚ) (s : Breakout) : Breakout :=
  let s :=
    if s.rightPressed then
      let s := { s with paddle := { s.paddle with x := s.paddle.x + s.paddle.speed * delta } }
      if s.paddle.x + s.paddle.width > s.canvasWidth then
        { s with paddle := { s.paddle with x := s.canvasWidth - s.paddle.width } }
      else s
    else s
  if s.leftPressed then
    let s := { s with paddle := { s.paddle with x := s.paddle.x - s.paddle.speed * delta } }
    if s.paddle.x < 0 then { s with paddle := { s.paddle with x := 0 } } else s
  else s

/-- The section `Update Ball Position` of `update`. -/
def moveBall (delta : ℚ) (s : Breakout) : Breakout :=
  let s := { s with ball := { s.ball with x := s.ball.x + s.ball.dx * delta } }
  { s with ball := { s.ball with y := s.ball.y + s.ball.dy * delta } }

/-- The section `Ball-Wall Collisions` of `update`: the new fields, and the call
of `stop()` made when the ball is below the bottom wall (after `alert` and
`document.location.reload()`, which leave the fields as they are). -/
def wallCollisions (s : Breakout) : Breakout × List EngineCall :=
  let s :=
    if s.ball.x + s.ball.radius > s.canvasWidth || s.ball.x - s.ball.radius < 0 then
      { s with ball := { s.ball with dx := -s.ball.dx } }
    else s
  let s :=
    if s.ball.y - s.ball.radius < 0 then { s with ball := { s.ball with dy := -s.ball.dy } }
    else s
  if s.ball.y + s.ball.radius > s.canvasHeight then (s, [EngineCall.stop]) else (s, [])

/-- The condition of the section `Ball-Paddle Collision`. -/
def hitsPaddle (s : Breakout) : Bool :=
  s.ball.x > s.paddle.x && s.ball.x < s.paddle.x + s.paddle.width &&
  s.ball.y + s.ball.radius > s.paddle.y &&
  s.ball.y - s.ball.radius < s.paddle.y + s.paddle.height

/-- The value of `hitPoint` after `Normalize between -1 and 1`. The division is
that of the rationals; the claim about it is for a paddle of positive width. -/
def hitPoint (s : Breakout) : ℚ :=
  (s.ball.x - (s.paddle.x + s.paddle.width / 2)) / (s.paddle.width / 2)

/-- The section `Ball-Paddle Collision` of `update`. -/
def paddleCollision (s : Breakout) : Breakout :=
  if hitsPaddle s then
    let s := { s with ball := { s.ball with dy := -s.ball.dy } }
    { s with ball := { s.ball with dx := hitPoint s * s.ball.speed } }
  else s

/-- The condition under which the ball removes `brick`. -/
def hitsBrick (ball : Ball) (config : BrickConfig) (brick : Brick) : Bool :=
  ball.x > brick.x && ball.x < brick.x + config.width &&
  ball.y - ball.radius < brick.y + config.height && ball.y + ball.radius > brick.y

/-- `this.bricks[r][c]`; `none` where the array has no such brick. -/
def brickAt (bricks : List (List Brick)) (r c : Nat) : Option Brick :=
  (bricks.get? r).bind (fun row => row.get? c)

/-- The body of the inner loop of the section `Ball-Brick Collisions`, for the
brick at row `r` and column `c`. The array `bricks` has `rowCount` rows of
`colCount` bricks, as the constructor builds it and no method changes; an index
the array does not have is passed over. -/
def brickStep (s : Breakout) (r c : Nat) : Breakout :=
  match brickAt s.bricks r c with
  | none => s
  | some brick =>
    if brick.status = 1 then
      if hitsBrick s.ball s.brickConfig brick then
        { s with
          ball := { s.ball with dy := -s.ball.dy }
          bricks := s.bricks.modify (fun row => row.set c { brick with status := 0 }) r }
      else s
    else s

/-- The section `Ball-Brick Collisions` of `update`: the two nested loops. -/
def brickCollisions (s : Breakout) : Breakout :=
  (List.range s.brickConfig.rowCount).foldl
    (fun s r => (List.range s.brickConfig.colCount).foldl (fun s c => brickStep s r c) s) s

/-- `update(dt)` of `BreakoutGame`: the new fields and the calls made on the
engine. -/
def BreakoutGame.update (dt : ℚ) (s : Breakout) : Breakout × List EngineCall :=
  let delta := dt / 1000
  let s := movePaddle delta s
  let s := moveBall delta s
  let w := wallCollisions s
  let s := paddleCollision w.1
  (brickCollisions s, w.2)

/-- `render()` of `BreakoutGame`: it draws, and changes no field. -/
def BreakoutGame.render (s : Breakout) : Breakout × List EngineCall := (s, [])

/-- The hooks of `BreakoutGame`. -/
def breakoutHooks : Hooks ℚ Breakout where
  update := BreakoutGame.update
  render := BreakoutGame.render

/-- The number of bricks of status `1`. -/
def liveBricks (bricks : List (List Brick)) : Nat :=
  (bricks.map (fun row => row.countP (fun b => b.status == 1))).sum

/-- How the brick loops may change one brick, for a ball at a fixed place: the
brick keeps its position, and its status either stays or goes from `1` to `0`
while the ball is on the brick. -/
def BrickRel (ball : Ball) (config : BrickConfig) (b b' : Brick) : Prop :=
  b'.x = b.x ∧ b'.y = b.y ∧
    (b'.status = b.status ∨
      (b.status = 1 ∧ b'.status = 0 ∧ hitsBrick ball config b = true))

/-- How the brick loops may change the fields: only the ball's `dy`, up to
sign, and the bricks, each as `BrickRel` allows. -/
def BrickPhase (s s' : Breakout) : Prop :=
  s'.canvasWidth = s.canvasWidth ∧ s'.canvasHeight = s.canvasHeight ∧
  s'.paddle = s.paddle ∧ s'.brickConfig = s.brickConfig ∧
  s'.rightPressed = s.rightPressed ∧ s'.leftPressed = s.leftPressed ∧
  s'.ball.x = s.ball.x ∧ s'.ball.y = s.ball.y ∧ s'.ball.radius = s.ball.radius ∧
  s'.ball.speed = s.ball.speed ∧ s'.ball.dx = s.ball.dx ∧
  (s'.ball.dy = s.ball.dy ∨ s'.ball.dy = -s.ball.dy) ∧
  List.Forall₂ (List.Forall₂ (BrickRel s.ball s.brickConfig)) s.bricks s'.bricks

/-- The fields after the two position updates of `update(dt)`: the paddle is
moved, then the ball. -/
def moved (dt : ℚ) (s : Breakout) : Breakout :=
  moveBall (dt / 1000) (movePaddle (dt / 1000) s)

/-! ### Concrete games, for the instances of the properties -/

/-- A game on a canvas of 480 by 320, as the constructor builds it. -/
def freshGame : Breakout := BreakoutGame.init { width := 480, height := 320 }

/-- A game on a canvas of 480 by 320 whose ball is on the paddle, moving down. -/
def paddleGame : Breakout :=
  { freshGame with
    ball := { x := 250, y := 295, radius := 10, speed := 250, dx := 150, dy := 150 } }

/-- A game on a canvas of 480 by 320 whose ball has passed the paddle. -/
def lostGame : Breakout :=
  { freshGame with
    ball := { x := 100, y := 315, radius := 10, speed := 250, dx := 150, dy := 150 } }

/-- A running engine whose game is `lostGame`, last updated at time `0`. -/
def lostEngine : GameEngine ℚ Breakout :=
  { canvas := { width := 480, height := 320 },
    ctx := some { canvas := { width := 480, height := 320 } }, lastUpdateTime := 0,
    running := true, game := lostGame, pending := 0, scheduled := 1, trace := [] }

/-- A game on a canvas of 480 by 120, where the paddle lies at the height of the
last row of bricks: the ball is on the paddle and on the brick of row 2,
column 2. -/
def tightGame : Breakout :=
  { BreakoutGame.init { width := 480, height := 120 } with
    ball := { x := 240, y := 100, radius := 10, speed := 250, dx := 150, dy := -150 } }

/-- The invariant of the marks: every cell is empty, `X` or `O`; while the game
is on, `X` is to play when the board has as many `X` as `O`, and `O` when it has
one more `X`; when the game is over the board has as many `X` as `O`, or one
more. -/
def MarksBalanced (s : TicTacToe) : Prop :=
  (∀ row ∈ s.board, ∀ cell ∈ row, cell = "" ∨ cell = "X" ∨ cell = "O") ∧
  ((s.gameOver = false ∧ s.currentPlayer = "X" ∧
      countMark s.board "X" = countMark s.board "O") ∨
    (s.gameOver = false ∧ s.currentPlayer = "O" ∧
      countMark s.board "X" = countMark s.board "O" + 1) ∨
    (s.gameOver = true ∧
      (countMark s.board "X" = countMark s.board "O" ∨
        countMark s.board "X" = countMark s.board "O" + 1)))

/-- The invariant of the end of the game: the board has three rows of three
cells, `X` or `O` is to play, no player has won and the board is not full while
the game is on, and when it is over a player has won or the board is full, and
the two players have not both won. -/
def EndConsistent (s : TicTacToe) : Prop :=
  (∃ a b c d e f g h i : String, s.board = [[a, b, c], [d, e, f], [g, h, i]]) ∧
  (s.currentPlayer = "X" ∨ s.currentPlayer = "O") ∧
  (s.gameOver = false →
    checkWinner s.board "X" = false ∧ checkWinner s.board "O" = false ∧
      isBoardFull s.board = false) ∧
  (s.gameOver = true →
    (checkWinner s.board "X" = true ∨ checkWinner s.board "O" = true ∨
        isBoardFull s.board = true) ∧
      ¬ (checkWinner s.board "X" = true ∧ checkWinner s.board "O" = true))

/-- The lookup of `key` in the mapping `a` overridden by the mapping `b`: the
value `b` holds under `key` if it holds one, else the value `a` holds. -/
def overridden (a b : Config) (key : Str) : Option Str :=
  match getOwn b key with
  | some value => some value
  | none => getOwn a key

/-! ## IEEE doubles, for the paddle section of Breakout

The numbers of the source are IEEE doubles. A finite double is
`mantissa * 2 ^ exponent`; the sum, difference, product and quotient of two
doubles are the exact result rounded to the nearest double, ties to the even
mantissa, with 53 bits and the least exponent `-1074`. Infinities and `NaN` are
not modelled: the values here are far from the largest finite double, and no
divisor is zero. -/

/-- A finite double, `mantissa * 2 ^ exponent`. -/
structure Double where
  mantissa : Int
  exponent : Int
  deriving DecidableEq, Repr

/-- The mantissa of `x` when written with the exponent `e`, for `e` at most the
exponent of `x`. -/
def Double.scaled (x : Double) (e : Int) : Int :=
  x.mantissa * ((2 ^ (x.exponent - e).toNat : Nat) : Int)

/-- `x < y`. -/
def Double.lt (x y : Double) : Bool :=
  decide (x.scaled (min x.exponent y.exponent) < y.scaled (min x.exponent y.exponent))

/-- `x <= y`. -/
def Double.le (x y : Double) : Bool :=
  decide (x.scaled (min x.exponent y.exponent) ≤ y.scaled (min x.exponent y.exponent))

/-- The number of binary digits of `n`, counted in at most `fuel` halvings. -/
def bitLengthAux : Nat → Nat → Nat
  | 0, _ => 0
  | fuel + 1, n => if n = 0 then 0 else bitLengthAux fuel (n / 2) + 1

/-- The number of binary digits of `n`. -/
def bitLength (n : Nat) : Nat := bitLengthAux n n

/-- The double nearest to `n / d * 2 ^ e`, for `d` positive: the quotient is
scaled to a mantissa of 53 bits (fewer at the least exponent) and rounded to the
nearest integer, ties to even. -/
def roundRatio (n : Int) (d : Nat) (e : Int) : Double :=
  if n = 0 then { mantissa := 0, exponent := 0 }
  else
    let a : Nat := n.natAbs
    let k0 : Int := (bitLength a : Int) - (bitLength d : Int) - 52
    let k1 : Int :=
      if d * 2 ^ k0.toNat * 2 ^ 52 ≤ a * 2 ^ (-k0).toNat then k0 else k0 - 1
    let k : Int := max k1 (-1074 - e)
    let num : Nat := a * 2 ^ (-k).toNat
    let den : Nat := d * 2 ^ k.toNat
    let q : Nat := num / den
    let r : Nat := num % den
    let m : Nat :=
      if 2 * r < den then q
      else if den < 2 * r then q + 1
      else if q % 2 = 0 then q else q + 1
    { mantissa := if 0 < n then (m : Int) else -(m : Int), exponent := e + k }

/-- The double of an integer literal. -/
def Double.ofInt (n : Int) : Double := roundRatio n 1 0

/-- The double of a decimal literal: `n / 10 ^ digits`. -/
def Double.ofDecimal (n : Int) (digits : Nat) : Double := roundRatio n (10 ^ digits) 0

/-- `x + y`. -/
def Double.add (x y : Double) : Double :=
  roundRatio (x.scaled (min x.exponent y.exponent) + y.scaled (min x.exponent y.exponent)) 1
    (min x.exponent y.exponent)

/-- `x - y`. -/
def Double.sub (x y : Double) : Double :=
  roundRatio (x.scaled (min x.exponent y.exponent) - y.scaled (min x.exponent y.exponent)) 1
    (min x.exponent y.exponent)

/-- `x * y`. -/
def Double.mul (x y : Double) : Double :=
  roundRatio (x.mantissa * y.mantissa) 1 (x.exponent + y.exponent)

/-- `x / y`, for `y` not zero. -/
def Double.div (x y : Double) : Double :=
  roundRatio (if 0 < y.mantissa then x.mantissa else -x.mantissa) y.mantissa.natAbs
    (x.exponent - y.exponent)

/-- The section `Update Paddle Position` of `update` in the arithmetic of the
source: the new `paddle.x`, from the fields the section reads and `dt`. -/
def movePaddleDouble (canvasWidth paddleWidth paddleSpeed paddleX : Double)
    (rightPressed leftPressed : Bool) (dt : Double) : Double :=
  let delta := Double.div dt (Double.ofInt 1000)
  let x :=
    if rightPressed then
      let x := Double.add paddleX (Double.mul paddleSpeed delta)
      if Double.lt canvasWidth (Double.add x paddleWidth) then
        Double.sub canvasWidth paddleWidth
      else x
    else paddleX
  if leftPressed then
    let x := Double.sub x (Double.mul paddleSpeed delta)
    if Double.lt x (Double.ofInt 0) then Double.ofInt 0 else x
  else x

/-- The double written `440.20000000000005`. -/
def driftX : Double := Double.ofDecimal 44020000000000005 14

/-! ## Lemmas on `split`, `join` and `trim` -/

@[simp] theorem beforeFirst_nil (sep : Char) : beforeFirst sep [] = [] := rfl
@[simp] theorem afterFirst_nil (sep : Char) : afterFirst sep [] = [] := rfl

@[simp] theorem beforeFirst_cons_self (sep : Char) (s : Str) :
    beforeFirst sep (sep :: s) = [] := by
  simp [beforeFirst, List.takeWhile_cons]

@[simp] theorem afterFirst_cons_self (sep : Char) (s : Str) :
    afterFirst sep (sep :: s) = s := by
  simp [afterFirst, List.dropWhile_cons]

theorem beforeFirst_cons_ne (sep c : Char) (s : Str) (h : c ≠ sep) :
    beforeFirst sep (c :: s) = c :: beforeFirst sep s := by
  simp [beforeFirst, List.takeWhile_cons, h]

theorem afterFirst_cons_ne (sep c : Char) (s : Str) (h : c ≠ sep) :
    afterFirst sep (c :: s) = afterFirst sep s := by
  simp [afterFirst, List.dropWhile_cons, h]

theorem mem_of_mem_cons_ne {sep c : Char} {s : Str} (h : sep ∈ c :: s) (hc : c ≠ sep) :
    sep ∈ s := by
  rcases List.mem_cons.1 h with e | e
  · exact absurd e.symm hc
  · exact e

theorem split_ne_nil (sep : Char) (s : Str) : split sep s ≠ [] := by
  cases s with
  | nil => simp [split]
  | cons c cs => simp only [split]; split_ifs <;> simp

theorem split_of_not_mem (sep : Char) (s : Str) (h : sep ∉ s) : split sep s = [s] := by
  induction s with
  | nil => rfl
  | cons c cs ih =>
    have hc : c ≠ sep := fun e => h (by simp [e])
    have hcs : sep ∉ cs := fun e => h (by simp [e])
    simp [split, hc, ih hcs]

theorem split_of_mem (sep : Char) (s : Str) (h : sep ∈ s) :
    split sep s = beforeFirst sep s :: split sep (afterFirst sep s) := by
  induction s with
  | nil => simp at h
  | cons c cs ih =>
    by_cases hc : c = sep
    · subst hc; simp [split]
    · simp [split, hc, ih (mem_of_mem_cons_ne h hc), beforeFirst_cons_ne, afterFirst_cons_ne]

theorem join_cons_of_ne_nil (sep : Char) (p : Str) (ps : List Str) (h : ps ≠ []) :
    join sep (p :: ps) = p ++ sep :: join sep ps := by
  cases ps with
  | nil => exact absurd rfl h
  | cons q qs => rfl

theorem join_split (sep : Char) (s : Str) : join sep (split sep s) = s := by
  induction s with
  | nil => rfl
  | cons c cs ih =>
    by_cases hc : c = sep
    · simp [split, hc, join_cons_of_ne_nil _ _ _ (split_ne_nil sep cs), ih]
    · cases hsp : split sep cs with
      | nil => exact absurd hsp (split_ne_nil sep cs)
      | cons p ps =>
        rw [hsp] at ih
        cases ps with
        | nil => simp [split, hc, hsp, join] at ih ⊢; exact ih
        | cons q qs => simp [split, hc, hsp, join] at ih ⊢; exact ih

theorem sep_not_mem_beforeFirst (sep : Char) (s : Str) : sep ∉ beforeFirst sep s := by
  intro h
  have := List.mem_takeWhile_imp h
  simp at this

theorem beforeFirst_of_not_mem (sep : Char) (s : Str) (h : sep ∉ s) : beforeFirst sep s = s := by
  induction s with
  | nil => rfl
  | cons c cs ih =>
    have hc : c ≠ sep := fun e => h (by simp [e])
    have hcs : sep ∉ cs := fun e => h (by simp [e])
    rw [beforeFirst_cons_ne _ _ _ hc, ih hcs]

theorem beforeFirst_append_afterFirst (sep : Char) (s : Str) (h : sep ∈ s) :
    beforeFirst sep s ++ sep :: afterFirst sep s = s := by
  induction s with
  | nil => simp at h
  | cons c cs ih =>
    by_cases hc : c = sep
    · subst hc; simp
    · simp [beforeFirst_cons_ne _ _ _ hc, afterFirst_cons_ne _ _ _ hc, ih (mem_of_mem_cons_ne h hc)]

theorem beforeFirst_append_sep (sep : Char) (p r : Str) (h : sep ∉ p) :
    beforeFirst sep (p ++ sep :: r) = p := by
  induction p with
  | nil => simp
  | cons c cs ih =>
    have hc : c ≠ sep := fun e => h (by simp [e])
    have hcs : sep ∉ cs := fun e => h (by simp [e])
    simp [beforeFirst_cons_ne _ _ _ hc, ih hcs]

theorem afterFirst_append_sep (sep : Char) (p r : Str) (h : sep ∉ p) :
    afterFirst sep (p ++ sep :: r) = r := by
  induction p with
  | nil => simp
  | cons c cs ih =>
    have hc : c ≠ sep := fun e => h (by simp [e])
    have hcs : sep ∉ cs := fun e => h (by simp [e])
    simp [afterFirst_cons_ne _ _ _ hc, ih hcs]

theorem split_length_lt_two (sep : Char) (s : Str) : (split sep s).length < 2 ↔ sep ∉ s := by
  constructor
  · intro h hm
    rw [split_of_mem sep s hm] at h
    cases hsp : split sep (afterFirst sep s) with
    | nil => exact split_ne_nil _ _ hsp
    | cons p ps => rw [hsp] at h; simp at h; omega
  · intro h; rw [split_of_not_mem sep s h]; simp

theorem head_split (sep : Char) (s : Str) : (split sep s).headD [] = beforeFirst sep s := by
  by_cases h : sep ∈ s
  · rw [split_of_mem sep s h]; rfl
  · rw [split_of_not_mem sep s h, beforeFirst_of_not_mem sep s h]; rfl

theorem join_drop_split (sep : Char) (s : Str) (h : sep ∈ s) :
    join sep ((split sep s).drop 1) = afterFirst sep s := by
  rw [split_of_mem sep s h]; simp [join_split]

theorem split_join (sep : Char) (ls : List Str) (hne : ls ≠ []) (h : ∀ l ∈ ls, sep ∉ l) :
    split sep (join sep ls) = ls := by
  induction ls with
  | nil => exact absurd rfl hne
  | cons p ps ih =>
    cases ps with
    | nil => simpa [join] using split_of_not_mem sep p (h p (by simp))
    | cons q qs =>
      have hp : sep ∉ p := h p (by simp)
      have ih' := ih (by simp) (fun l hl => h l (by simp [hl]))
      have hmem : sep ∈ p ++ sep :: join sep (q :: qs) := by simp
      rw [join, split_of_mem _ _ hmem, beforeFirst_append_sep _ _ _ hp,
        afterFirst_append_sep _ _ _ hp, ih']

theorem not_mem_of_mem_split (sep : Char) (s : Str) : ∀ l ∈ split sep s, sep ∉ l := by
  induction s with
  | nil => simp [split]
  | cons c cs ih =>
    intro l hl
    by_cases hc : c = sep
    · simp [split, hc] at hl
      rcases hl with rfl | hl
      · simp
      · exact ih l hl
    · cases hsp : split sep cs with
      | nil => exact absurd hsp (split_ne_nil sep cs)
      | cons p ps =>
        rw [hsp] at ih
        simp [split, hc, hsp] at hl
        rcases hl with rfl | hl
        · have := ih p (by simp)
          simp [this, Ne.symm hc]
        · exact ih l (by simp [hl])

theorem dropWhile_append_of_all (p : Char → Bool) (w x : Str) (h : ∀ c ∈ w, p c = true) :
    (w ++ x).dropWhile p = x.dropWhile p := by
  induction w with
  | nil => rfl
  | cons c cs ih =>
    have hc : p c = true := h c (by simp)
    simp [List.dropWhile_cons, hc, ih (fun d hd => h d (by simp [hd]))]

theorem dropWhile_append_of_exists (p : Char → Bool) (y x : Str) (h : ∃ c ∈ y, p c = false) :
    (y ++ x).dropWhile p = y.dropWhile p ++ x := by
  induction y with
  | nil => simp at h
  | cons c cs ih =>
    by_cases hc : p c = true
    · obtain ⟨d, hd, hpd⟩ := h
      have hd' : d ∈ cs := by
        rcases List.mem_cons.1 hd with e | e
        · subst e; simp [hc] at hpd
        · exact e
      simp [List.dropWhile_cons, hc, ih ⟨d, hd', hpd⟩]
    · simp [List.dropWhile_cons, hc]

theorem dropWhile_eq_self_or (p : Char → Bool) (s : Str) :
    s.dropWhile p = [] ∨ ∃ c r, s.dropWhile p = c :: r ∧ p c = false := by
  induction s with
  | nil => simp
  | cons c cs ih =>
    by_cases hc : p c = true
    · simpa [List.dropWhile_cons, hc] using ih
    · right; exact ⟨c, cs, by simp [List.dropWhile_cons, hc], by simpa using hc⟩

theorem trimStart_decomp (s : Str) : ∃ w, AllTrim w ∧ s = w ++ trimStart s :=
  ⟨s.takeWhile isTrimChar, fun _ hc => List.mem_takeWhile_imp hc,
    (List.takeWhile_append_dropWhile isTrimChar s).symm⟩

theorem trimEnd_decomp (s : Str) : ∃ w, AllTrim w ∧ s = trimEnd s ++ w := by
  refine ⟨(s.reverse.takeWhile isTrimChar).reverse, ?_, ?_⟩
  · intro c hc
    exact List.mem_takeWhile_imp (List.mem_reverse.1 hc)
  · have := congrArg List.reverse (List.takeWhile_append_dropWhile isTrimChar s.reverse)
    rw [List.reverse_append, List.reverse_reverse] at this
    exact this.symm

theorem trim_decomp (s : Str) : ∃ w₁ w₂, AllTrim w₁ ∧ AllTrim w₂ ∧ s = w₁ ++ trim s ++ w₂ := by
  obtain ⟨w₁, h₁, e₁⟩ := trimStart_decomp s
  obtain ⟨w₂, h₂, e₂⟩ := trimEnd_decomp (trimStart s)
  refine ⟨w₁, w₂, h₁, h₂, ?_⟩
  rw [List.append_assoc]
  unfold trim
  rw [← e₂]; exact e₁

theorem trimStart_append_left (w x : Str) (h : AllTrim w) : trimStart (w ++ x) = trimStart x :=
  dropWhile_append_of_all _ _ _ h

theorem trimEnd_append_right (x w : Str) (h : AllTrim w) : trimEnd (x ++ w) = trimEnd x := by
  unfold trimEnd
  rw [List.reverse_append, dropWhile_append_of_all _ _ _ (fun c hc => h c (List.mem_reverse.1 hc))]

theorem trimStart_eq_nil (s : Str) : trimStart s = [] ↔ AllTrim s := by
  simp [trimStart, AllTrim, List.dropWhile_eq_nil_iff]

theorem trimEnd_eq_nil (s : Str) : trimEnd s = [] ↔ AllTrim s := by
  simp [trimEnd, AllTrim, List.dropWhile_eq_nil_iff]

theorem trimStart_head (s : Str) :
    trimStart s = [] ∨ ∃ c r, trimStart s = c :: r ∧ isTrimChar c = false :=
  dropWhile_eq_self_or _ _

theorem trim_eq_nil (s : Str) : trim s = [] ↔ AllTrim s := by
  unfold trim
  rw [trimEnd_eq_nil]
  constructor
  · intro h
    rcases trimStart_head s with e | ⟨c, r, e, hc⟩
    · exact (trimStart_eq_nil s).1 e
    · have := h c (by simp [e])
      simp [hc] at this
  · intro h
    rw [(trimStart_eq_nil s).2 h]
    intro c hc; simp at hc

theorem trim_append_left (w x : Str) (h : AllTrim w) : trim (w ++ x) = trim x := by
  unfold trim; rw [trimStart_append_left w x h]

theorem trim_append_right (x w : Str) (h : AllTrim w) : trim (x ++ w) = trim x := by
  by_cases hx : AllTrim x
  · have hxw : AllTrim (x ++ w) := by
      intro c hc
      rcases List.mem_append.1 hc with e | e
      · exact hx c e
      · exact h c e
    rw [(trim_eq_nil _).2 hx, (trim_eq_nil _).2 hxw]
  · have hex : ∃ c ∈ x, isTrimChar c = false := by
      unfold AllTrim at hx
      push_neg at hx
      obtain ⟨c, hc, hn⟩ := hx
      exact ⟨c, hc, by simpa using hn⟩
    unfold trim trimStart
    rw [dropWhile_append_of_exists _ _ _ hex, trimEnd_append_right _ _ h]

theorem trim_trim (s : Str) : trim (trim s) = trim s := by
  obtain ⟨w₁, w₂, h₁, h₂, e⟩ := trim_decomp s
  conv_rhs => rw [e]
  rw [trim_append_right _ _ h₂, trim_append_left _ _ h₁]

theorem mem_trim_iff (c : Char) (hc : isTrimChar c = false) (s : Str) : c ∈ trim s ↔ c ∈ s := by
  obtain ⟨w₁, w₂, h₁, h₂, e⟩ := trim_decomp s
  constructor
  · intro h; rw [e]; simp [h]
  · intro h
    rw [e] at h
    simp only [List.mem_append] at h
    rcases h with (h | h) | h
    · have := h₁ c h; simp [hc] at this
    · exact h
    · have := h₂ c h; simp [hc] at this

theorem trimEnd_cons (c : Char) (hc : isTrimChar c = false) (s : Str) :
    trimEnd (c :: s) = c :: trimEnd s := by
  unfold trimEnd
  by_cases hs : ∃ d ∈ s.reverse, isTrimChar d = false
  · rw [List.reverse_cons, dropWhile_append_of_exists _ _ _ hs]; simp
  · push_neg at hs
    have hs' : ∀ d ∈ s.reverse, isTrimChar d = true := fun d hd => by simpa using hs d hd
    rw [List.reverse_cons, dropWhile_append_of_all _ _ _ hs']
    have : s.reverse.dropWhile isTrimChar = [] := by
      rw [List.dropWhile_eq_nil_iff]; exact hs'
    simp [this, List.dropWhile_cons, hc]

theorem startsWith_trim (c : Char) (s : Str) :
    startsWith c (trim s) = startsWith c (trimStart s) := by
  unfold trim
  rcases trimStart_head s with e | ⟨d, r, e, hd⟩
  · rw [e]; rfl
  · rw [e, trimEnd_cons d hd r]; rfl

/-! ## Lemmas on `parseLine` -/

theorem not_mem_of_allTrim {c : Char} (hc : isTrimChar c = false) {w : Str} (hw : AllTrim w) :
    c ∉ w := by
  intro h
  have := hw c h
  simp [hc] at this

theorem beforeFirst_append_of_not_mem (sep : Char) (w x : Str) (h : sep ∉ w) :
    beforeFirst sep (w ++ x) = w ++ beforeFirst sep x := by
  induction w with
  | nil => rfl
  | cons c cs ih =>
    have hc : c ≠ sep := fun e => h (by simp [e])
    have hcs : sep ∉ cs := fun e => h (by simp [e])
    simp [beforeFirst_cons_ne _ _ _ hc, ih hcs]

theorem afterFirst_append_of_not_mem (sep : Char) (w x : Str) (h : sep ∉ w) :
    afterFirst sep (w ++ x) = afterFirst sep x := by
  induction w with
  | nil => rfl
  | cons c cs ih =>
    have hc : c ≠ sep := fun e => h (by simp [e])
    have hcs : sep ∉ cs := fun e => h (by simp [e])
    simp [afterFirst_cons_ne _ _ _ hc, ih hcs]

theorem beforeFirst_append_of_mem (sep : Char) (m r : Str) (h : sep ∈ m) :
    beforeFirst sep (m ++ r) = beforeFirst sep m := by
  induction m with
  | nil => simp at h
  | cons c cs ih =>
    by_cases hc : c = sep
    · subst hc; simp
    · simp [beforeFirst_cons_ne _ _ _ hc, ih (mem_of_mem_cons_ne h hc)]

theorem afterFirst_append_of_mem (sep : Char) (m r : Str) (h : sep ∈ m) :
    afterFirst sep (m ++ r) = afterFirst sep m ++ r := by
  induction m with
  | nil => simp at h
  | cons c cs ih =>
    by_cases hc : c = sep
    · subst hc; simp
    · simp [afterFirst_cons_ne _ _ _ hc, ih (mem_of_mem_cons_ne h hc)]

theorem afterFirst_of_not_mem (sep : Char) (s : Str) (h : sep ∉ s) : afterFirst sep s = [] := by
  induction s with
  | nil => rfl
  | cons c cs ih =>
    have hc : c ≠ sep := fun e => h (by simp [e])
    have hcs : sep ∉ cs := fun e => h (by simp [e])
    rw [afterFirst_cons_ne _ _ _ hc, ih hcs]

theorem trim_beforeFirst_trim (sep : Char) (hsep : isTrimChar sep = false) (l : Str) :
    trim (beforeFirst sep (trim l)) = trim (beforeFirst sep l) := by
  obtain ⟨w₁, w₂, h₁, h₂, e⟩ := trim_decomp l
  by_cases hm : sep ∈ trim l
  · conv_rhs => rw [e]
    rw [List.append_assoc, beforeFirst_append_of_not_mem _ _ _ (not_mem_of_allTrim hsep h₁),
      beforeFirst_append_of_mem _ _ _ hm, trim_append_left _ _ h₁]
  · have hl : sep ∉ l := fun h => hm ((mem_trim_iff sep hsep l).2 h)
    rw [beforeFirst_of_not_mem _ _ hm, beforeFirst_of_not_mem _ _ hl, trim_trim]

theorem trim_afterFirst_trim (sep : Char) (hsep : isTrimChar sep = false) (l : Str) :
    trim (afterFirst sep (trim l)) = trim (afterFirst sep l) := by
  obtain ⟨w₁, w₂, h₁, h₂, e⟩ := trim_decomp l
  by_cases hm : sep ∈ trim l
  · conv_rhs => rw [e]
    rw [List.append_assoc, afterFirst_append_of_not_mem _ _ _ (not_mem_of_allTrim hsep h₁),
      afterFirst_append_of_mem _ _ _ hm, trim_append_right _ _ h₂]
  · have hl : sep ∉ l := fun h => hm ((mem_trim_iff sep hsep l).2 h)
    rw [afterFirst_of_not_mem _ _ hm, afterFirst_of_not_mem _ _ hl]

theorem isTrimChar_colon : isTrimChar ':' = false := by decide

theorem isBlank_iff (line : Str) : isBlank line = true ↔ trim line = [] := by
  rw [trim_eq_nil]; simp [isBlank, AllTrim]

theorem isComment_eq (line : Str) : isComment line = startsWith '#' (trim line) := by
  rw [startsWith_trim]
  unfold isComment trimStart
  cases List.dropWhile isTrimChar line with
  | nil => rfl
  | cons d r => simp [startsWith]

theorem hasColon_iff (line : Str) : hasColon line = true ↔ ':' ∈ line := by
  simp [hasColon]

theorem parseLine_eq (config : Config) (line : Str) :
    parseLine config line =
      if isSkipped line then config else assign config (lineKey line) (lineValue line) := by
  unfold parseLine isSkipped
  simp only []
  by_cases hb : isBlank line = true
  · have := (isBlank_iff line).1 hb
    simp [hb, this]
  · have hb' : trim line ≠ [] := fun e => hb ((isBlank_iff line).2 e)
    have hbf : isBlank line = false := by simpa using hb
    by_cases hc : isComment line = true
    · have := (isComment_eq line).symm.trans hc
      simp [hc, this]
    · have hcf : isComment line = false := by simpa using hc
      have hs : startsWith '#' (trim line) = false := (isComment_eq line).symm.trans hcf
      by_cases hk : ':' ∈ line
      · have hk' : ':' ∈ trim line := (mem_trim_iff ':' isTrimChar_colon line).2 hk
        have hlen : ¬ (split ':' (trim line)).length < 2 :=
          fun h => (split_length_lt_two ':' (trim line)).1 h hk'
        have hh : hasColon line = true := (hasColon_iff line).2 hk
        simp only [hbf, hcf, hh, hb', hs, hlen, head_split, join_drop_split _ _ hk',
          trim_beforeFirst_trim ':' isTrimChar_colon, trim_afterFirst_trim ':' isTrimChar_colon,
          lineKey, lineValue]
        simp
      · have hk' : ':' ∉ trim line := fun h => hk ((mem_trim_iff ':' isTrimChar_colon line).1 h)
        have hlen : (split ':' (trim line)).length < 2 :=
          (split_length_lt_two ':' (trim line)).2 hk'
        have hh : hasColon line = false := by
          cases h : hasColon line with
          | false => rfl
          | true => exact absurd ((hasColon_iff line).1 h) hk
        simp [hbf, hcf, hh, hb', hs, hlen]

theorem parseLine_of_skipped (config : Config) (line : Str) (h : isSkipped line = true) :
    parseLine config line = config := by
  rw [parseLine_eq, if_pos h]

theorem foldl_parseLine_filter (ls : List Str) (config : Config) :
    (ls.filter (fun l => !isSkipped l)).foldl parseLine config = ls.foldl parseLine config := by
  induction ls generalizing config with
  | nil => rfl
  | cons l ls ih =>
    by_cases h : isSkipped l = true
    · simp [List.filter_cons, h, parseLine_of_skipped config l h, ih]
    · simp [List.filter_cons, h, ih]

theorem setOwn_of_not_mem (config : Config) (key value : Str)
    (h : key ∉ config.map Prod.fst) : setOwn config key value = config ++ [(key, value)] := by
  induction config with
  | nil => rfl
  | cons e rest ih =>
    obtain ⟨k, v⟩ := e
    have hk : k ≠ key := fun e => h (by simp [e])
    have hr : key ∉ rest.map Prod.fst := fun e => h (by simp [e])
    simp [setOwn, hk, ih hr]

theorem getOwn_setOwn (config : Config) (key value : Str) :
    getOwn (setOwn config key value) key = some value := by
  induction config with
  | nil => simp [setOwn, getOwn]
  | cons e rest ih =>
    obtain ⟨k, v⟩ := e
    by_cases hk : k = key
    · simp [setOwn, hk, getOwn]
    · simp only [getOwn] at ih
      simp [setOwn, hk, getOwn, List.find?_cons, ih]

theorem foldl_parseLine_distinct (ls : List Str) (config : Config)
    (hcolon : ∀ l ∈ ls.filter isContent, ':' ∈ l)
    (hdistinct : (config.map Prod.fst ++
      (ls.filter isContent).map lineKey).Nodup)
    (hproto : protoKey ∉ (ls.filter isContent).map lineKey) :
    ls.foldl parseLine config =
      config ++ (ls.filter isContent).map
        (fun l => (lineKey l, lineValue l)) := by
  induction ls generalizing config with
  | nil => simp
  | cons l ls ih =>
    by_cases hl : isContent l = true
    · rw [List.filter_cons_of_pos hl] at hcolon hdistinct hproto
      have hb : isBlank l = false := by
        cases h : isBlank l <;> simp [isContent, h] at hl ⊢
      have hc : isComment l = false := by
        cases h : isComment l <;> simp [isContent, h] at hl ⊢
      have hk : hasColon l = true := (hasColon_iff l).2 (hcolon l (by simp))
      have hns : isSkipped l = false := by simp [isSkipped, hb, hc, hk]
      have hkp : lineKey l ≠ protoKey := fun e => hproto (by simp [e])
      have hnodup := hdistinct
      rw [List.map_cons, List.nodup_append] at hnodup
      have hnew : lineKey l ∉ config.map Prod.fst := fun hm =>
        hnodup.2.2 hm (by simp)
      have hstep : parseLine config l = config ++ [(lineKey l, lineValue l)] := by
        rw [parseLine_eq, hns]
        simp only [Bool.false_eq_true, if_false, assign, if_neg hkp]
        exact setOwn_of_not_mem _ _ _ hnew
      rw [List.foldl_cons, hstep, List.filter_cons_of_pos hl,
        ih (config ++ [(lineKey l, lineValue l)])
          (fun x hx => hcolon x (by simp [hx]))
          (by simpa [List.map_append, List.append_assoc] using hdistinct)
          (fun hm => hproto (by simp only [List.map_cons, List.mem_cons]; exact Or.inr hm))]
      simp
    · have hsk : isSkipped l = true := by
        cases hb : isBlank l <;> cases hc : isComment l <;>
          simp [isContent, hb, hc, isSkipped] at hl ⊢
      rw [List.filter_cons_of_neg hl] at hcolon hdistinct hproto
      rw [List.foldl_cons, parseLine_of_skipped _ _ hsk, List.filter_cons_of_neg hl]
      exact ih config hcolon hdistinct hproto

/-! ## Properties of `parseDSL` -/

/-- C1, as stated, fails on a repeated key: in the text `a:1`, `a:2` both lines
are content lines with a colon, and the mapping has one entry for the two. -/
theorem parseDSL_repeated_key_one_entry :
    (∀ l ∈ contentLines ['a', ':', '1', '\n', 'a', ':', '2'], ':' ∈ l) ∧
    contentLines ['a', ':', '1', '\n', 'a', ':', '2'] = [['a', ':', '1'], ['a', ':', '2']] ∧
    parseDSL ['a', ':', '1', '\n', 'a', ':', '2'] = [(['a'], ['2'])] ∧
    (parseDSL ['a', ':', '1', '\n', 'a', ':', '2']).length ≠
      (contentLines ['a', ':', '1', '\n', 'a', ':', '2']).length := by
  decide

/-- C1 (amended): when every line of the text that is neither blank nor a
comment contains a colon, and the trimmed keys of those lines are pairwise
distinct and none of them is `__proto__`, the mapping returned by `parseDSL` has
exactly one entry per such line, in order, whose key is the trimmed text of the
line before its first colon (and whose value is the trimmed text after it). -/
theorem parseDSL_entry_per_content_line (text : Str)
    (hcolon : ∀ l ∈ contentLines text, ':' ∈ l)
    (hdistinct : ((contentLines text).map lineKey).Nodup)
    (hproto : protoKey ∉ (contentLines text).map lineKey) :
    parseDSL text = (contentLines text).map (fun l => (lineKey l, lineValue l)) ∧
    (parseDSL text).map Prod.fst = (contentLines text).map lineKey ∧
    (parseDSL text).length = (contentLines text).length := by
  have h : parseDSL text = (contentLines text).map (fun l => (lineKey l, lineValue l)) := by
    have := foldl_parseLine_distinct (split '\n' text) [] hcolon (by simpa using hdistinct) hproto
    simpa [parseDSL, contentLines] using this
  refine ⟨h, ?_, ?_⟩
  · rw [h, List.map_map]; rfl
  · rw [h, List.length_map]

/-- The amended C1 at the text `width: 800`, `# comment`, `height:600`. -/
theorem parseDSL_entry_per_content_line_witness :
    parseDSL "width: 800\n# comment\nheight:600\n".toList =
        (contentLines "width: 800\n# comment\nheight:600\n".toList).map
          (fun l => (lineKey l, lineValue l)) ∧
    (parseDSL "width: 800\n# comment\nheight:600\n".toList).map Prod.fst =
        (contentLines "width: 800\n# comment\nheight:600\n".toList).map lineKey ∧
    (parseDSL "width: 800\n# comment\nheight:600\n".toList).length =
        (contentLines "width: 800\n# comment\nheight:600\n".toList).length :=
  parseDSL_entry_per_content_line "width: 800\n# comment\nheight:600\n".toList
    (by decide) (by decide) (by decide)

/-- The split rule of the loop body, for every key but `__proto__`: for a line
that `parseDSL` keeps (its trimmed text `t` is not empty, does not start with
`#` and contains a colon), `split(':')` followed by `slice(1).join(':')` returns
exactly the text of `t` after its first colon, and `parts[0]` is the text of `t`
before its first colon: `t` is the one, a colon, and the other, and the first
has no colon. The loop body assigns the trimmed second under the trimmed first,
which are also the trimmed texts of the raw line before and after its first
colon; unless the key is `__proto__`, the mapping then holds that value under
that key. The text `url: http://x:80` followed by a newline yields the single
entry `url` with value `http://x:80`. -/
theorem parseLine_splits_at_first_colon :
    (∀ (config : Config) (line : Str), trim line ≠ [] →
      startsWith '#' (trim line) = false → ':' ∈ trim line →
      (split ':' (trim line)).headD [] = beforeFirst ':' (trim line) ∧
      join ':' ((split ':' (trim line)).drop 1) = afterFirst ':' (trim line) ∧
      beforeFirst ':' (trim line) ++ ':' :: afterFirst ':' (trim line) = trim line ∧
      ':' ∉ beforeFirst ':' (trim line) ∧
      parseLine config line =
        assign config (trim (beforeFirst ':' (trim line))) (trim (afterFirst ':' (trim line))) ∧
      trim (beforeFirst ':' (trim line)) = lineKey line ∧
      trim (afterFirst ':' (trim line)) = lineValue line ∧
      (lineKey line ≠ protoKey →
        getOwn (parseLine config line) (lineKey line) = some (lineValue line))) ∧
    parseDSL "url: http://x:80\n".toList = [("url".toList, "http://x:80".toList)] := by
  refine ⟨?_, by decide⟩
  intro config line hne hhash hcolon
  have hlen : ¬ (split ':' (trim line)).length < 2 :=
    fun h => (split_length_lt_two ':' (trim line)).1 h hcolon
  have hk := trim_beforeFirst_trim ':' isTrimChar_colon line
  have hv := trim_afterFirst_trim ':' isTrimChar_colon line
  have hstep : parseLine config line =
      assign config (trim (beforeFirst ':' (trim line))) (trim (afterFirst ':' (trim line))) := by
    unfold parseLine
    simp only [hne, hhash, hlen, head_split, join_drop_split _ _ hcolon]
    simp
  refine ⟨head_split _ _, join_drop_split _ _ hcolon,
    beforeFirst_append_afterFirst _ _ hcolon, sep_not_mem_beforeFirst _ _, hstep, hk, hv, ?_⟩
  intro hp
  rw [hstep, hk, hv]
  unfold lineKey lineValue at *
  rw [assign, if_neg hp]
  exact getOwn_setOwn _ _ _

/-- The split rule at the line `url: http://x:80`, on an empty mapping. -/
theorem parseLine_splits_at_first_colon_witness :
    parseLine [] "url: http://x:80".toList =
        assign [] (trim (beforeFirst ':' (trim "url: http://x:80".toList)))
          (trim (afterFirst ':' (trim "url: http://x:80".toList))) ∧
    getOwn (parseLine [] "url: http://x:80".toList) (lineKey "url: http://x:80".toList) =
        some "http://x:80".toList :=
  have h := parseLine_splits_at_first_colon.1 [] "url: http://x:80".toList
    (by decide) (by decide) (by decide)
  ⟨h.2.2.2.2.1, h.2.2.2.2.2.2.2 (by decide)⟩

/-- C3: `parseDSL` returns for every text the mapping it returns for the text
without its blank lines, its comment lines (with or without a colon) and its
lines without a colon; the loop body leaves the mapping as it is on each such
line, and `parseDSL` is total: no line raises an error. The text `width: 800`,
`# comment`, `height:600`, `bad line` yields exactly the entries `width` with
`800` and `height` with `600`. -/
theorem parseDSL_ignores_skipped_lines :
    (∀ text : Str, parseDSL (removeSkipped text) = parseDSL text) ∧
    (∀ (config : Config) (line : Str), isSkipped line = true → parseLine config line = config) ∧
    parseDSL "width: 800\n# comment\nheight:600\nbad line\n".toList =
      [("width".toList, "800".toList), ("height".toList, "600".toList)] := by
  refine ⟨?_, parseLine_of_skipped, by decide⟩
  intro text
  unfold parseDSL removeSkipped
  by_cases hnil : (split '\n' text).filter (fun l => !isSkipped l) = []
  · rw [← foldl_parseLine_filter (split '\n' text) [], hnil]
    decide
  · rw [split_join '\n' _ hnil
      (fun l hl => not_mem_of_mem_split '\n' text l (List.mem_of_mem_filter hl))]
    exact foldl_parseLine_filter _ _

/-! ## Lemmas on the engine -/

section Engine

variable {T G : Type}

theorem runningAfter_append (b : Bool) (cs ds : List EngineCall) :
    runningAfter b (cs ++ ds) = runningAfter (runningAfter b cs) ds := by
  induction cs generalizing b with
  | nil => rfl
  | cons c cs ih => cases c <;> simp [runningAfter, ih]

theorem runningAfter_of_no_start (b : Bool) (cs : List EngineCall)
    (h : EngineCall.start ∉ cs) : runningAfter b cs = (b && cs.isEmpty) ∨ runningAfter b cs = false := by
  induction cs generalizing b with
  | nil => left; simp [runningAfter]
  | cons c cs ih =>
    cases c with
    | start => simp at h
    | stop =>
      right
      have hcs : EngineCall.start ∉ cs := fun e => h (by simp [e])
      rcases ih false hcs with e | e
      · simp [runningAfter, e]
      · simp [runningAfter, e]

theorem runningAfter_false_of_no_start (cs : List EngineCall) (h : EngineCall.start ∉ cs) :
    runningAfter false cs = false := by
  rcases runningAfter_of_no_start false cs h with e | e
  · simpa using e
  · exact e

theorem count_start_eq_zero (cs : List EngineCall) (h : EngineCall.start ∉ cs) :
    cs.count EngineCall.start = 0 :=
  List.count_eq_zero.2 h

theorem calls_eq (e : GameEngine T G) (cs : List EngineCall) :
    e.calls cs =
      { e with
        running := runningAfter e.running cs
        pending := e.pending + cs.count EngineCall.start
        scheduled := e.scheduled + cs.count EngineCall.start } := by
  induction cs generalizing e with
  | nil => rfl
  | cons c cs ih =>
    have hstep : e.calls (c :: cs) = (e.call c).calls cs := rfl
    rw [hstep, ih]
    cases c with
    | start =>
      simp [GameEngine.call, GameEngine.start, requestAnimationFrame, runningAfter]
      omega
    | stop =>
      simp [GameEngine.call, GameEngine.stop, runningAfter]

/-- The state `gameLoop` returns, field by field. -/
theorem gameLoop_eq [Sub T] (h : Hooks T G) (e : GameEngine T G) (timestamp : T) :
    e.gameLoop h timestamp =
      { canvas := e.canvas
        ctx := e.ctx
        lastUpdateTime := timestamp
        running := runningAfter e.running (hookCalls h e timestamp)
        game := (h.render (h.update (timestamp - e.lastUpdateTime) e.game).1).1
        pending := e.pending + (hookCalls h e timestamp).count EngineCall.start +
          (if runningAfter e.running (hookCalls h e timestamp) then 1 else 0)
        scheduled := e.scheduled + (hookCalls h e timestamp).count EngineCall.start +
          (if runningAfter e.running (hookCalls h e timestamp) then 1 else 0)
        trace := e.trace ++
          [HookEvent.update (timestamp - e.lastUpdateTime), HookEvent.render] } := by
  unfold GameEngine.gameLoop GameEngine.render GameEngine.update hookCalls
  simp only [calls_eq, runningAfter_append, List.count_append]
  split_ifs with hrun
  · simp [requestAnimationFrame, hrun]
    omega
  · simp [hrun]
    omega

end Engine

section EngineProperties

variable {T G : Type}

theorem gameLoop_trace [Sub T] (h : Hooks T G) (e : GameEngine T G) (timestamp : T) :
    (e.gameLoop h timestamp).trace =
      e.trace ++ [HookEvent.update (timestamp - e.lastUpdateTime), HookEvent.render] := by
  rw [gameLoop_eq]

theorem gameLoop_lastUpdateTime [Sub T] (h : Hooks T G) (e : GameEngine T G) (timestamp : T) :
    (e.gameLoop h timestamp).lastUpdateTime = timestamp := by
  rw [gameLoop_eq]

theorem deltaTimes_append (evs evs' : List (HookEvent T)) :
    deltaTimes (evs ++ evs') = deltaTimes evs ++ deltaTimes evs' := by
  induction evs with
  | nil => rfl
  | cons ev evs ih => cases ev <;> simp [deltaTimes, ih]

theorem frames_deltaTimes [Sub T] (h : Hooks T G) (ts : List T) (e : GameEngine T G) :
    deltaTimes (e.frames h ts).trace =
      deltaTimes e.trace ++ List.zipWith (fun t prev => t - prev) ts (e.lastUpdateTime :: ts) := by
  induction ts generalizing e with
  | nil => simp [GameEngine.frames]
  | cons t ts ih =>
    have hstep : e.frames h (t :: ts) = (e.gameLoop h t).frames h ts := rfl
    rw [hstep, ih, gameLoop_trace, gameLoop_lastUpdateTime, deltaTimes_append]
    simp [deltaTimes]

theorem frames_append [Sub T] (h : Hooks T G) (e : GameEngine T G) (ts : List T) (t : T) :
    e.frames h (ts ++ [t]) = (e.frames h ts).gameLoop h t := by
  simp [GameEngine.frames, List.foldl_append]

theorem new_ok_iff (document : Document) (now : T) (game : G) (canvasId : String)
    (e : GameEngine T G) :
    GameEngine.new document now game canvasId = .ok e ↔
      ∃ canvas context2d, document canvasId = some (Element.canvas canvas context2d) ∧
        e = { canvas := canvas, ctx := context2d, lastUpdateTime := now, running := false,
              game := game, pending := 0, scheduled := 0, trace := [] } := by
  unfold GameEngine.new
  cases hdoc : document canvasId with
  | none => simp
  | some element =>
    cases element with
    | other tag => simp
    | canvas canvas context2d =>
      simp only [Except.ok.injEq, Option.some.injEq, Element.canvas.injEq]
      constructor
      · intro he
        exact ⟨canvas, context2d, ⟨rfl, rfl⟩, he.symm⟩
      · rintro ⟨c, x, ⟨rfl, rfl⟩, he⟩
        exact he.symm

theorem gameLoop_game [Sub T] (h : Hooks T G) (e : GameEngine T G) (timestamp : T) :
    (e.gameLoop h timestamp).game = hooksOnce h (timestamp - e.lastUpdateTime) e.game := by
  rw [gameLoop_eq]
  rfl

theorem frames_game [Sub T] (h : Hooks T G) (ts : List T) (e : GameEngine T G) :
    (e.frames h ts).game = hooksOver h e.lastUpdateTime e.game ts := by
  induction ts generalizing e with
  | nil => rfl
  | cons t ts ih =>
    have hstep : e.frames h (t :: ts) = (e.gameLoop h t).frames h ts := rfl
    rw [hstep, ih, gameLoop_game, gameLoop_lastUpdateTime]
    rfl

theorem hooksOver_recording [Sub T] (ts : List T) (last : T) (game : List T) :
    hooksOver (recordingHooks T) last game ts =
      game ++ List.zipWith (fun t prev => t - prev) ts (last :: ts) := by
  induction ts generalizing last game with
  | nil => simp [hooksOver]
  | cons t ts ih =>
    rw [hooksOver, ih]
    simp [hooksOnce, recordingHooks]

/-! ## Properties of the engine -/

/-- C4: when the time stamps `ts` are passed in order to `gameLoop`, the hook
`update` is called with the first time stamp minus the engine's `lastUpdateTime`
before the first callback, then with each time stamp minus the one before it:
the fields of the subclass are what these calls of `update`, each followed by
`render`, make of them, and a subclass that records the values of `dt` it is
handed holds exactly these differences. The trace agrees, and after each
callback `lastUpdateTime` is that callback's time stamp. For a constructed
engine the first `lastUpdateTime` is the time read at construction. This holds
for every sequence of time stamps, increasing or not, and whatever the hooks
do. -/
theorem gameLoop_deltaTime_is_timestamp_difference [Sub T] (h : Hooks T G) :
    (∀ (e : GameEngine T G) (ts : List T),
      (e.frames h ts).game = hooksOver h e.lastUpdateTime e.game ts) ∧
    (∀ (e : GameEngine T G) (t : T),
      (e.gameLoop h t).game = (h.render (h.update (t - e.lastUpdateTime) e.game).1).1) ∧
    (∀ (e : GameEngine T (List T)) (ts : List T),
      (e.frames (recordingHooks T) ts).game =
        e.game ++ List.zipWith (fun t prev => t - prev) ts (e.lastUpdateTime :: ts)) ∧
    (∀ (document : Document) (b : T) (canvasId : String) (e : GameEngine T (List T))
        (ts : List T), GameEngine.new document b [] canvasId = .ok e →
      (e.frames (recordingHooks T) ts).game =
        List.zipWith (fun t prev => t - prev) ts (b :: ts)) ∧
    (∀ (e : GameEngine T G) (ts : List T),
      deltaTimes (e.frames h ts).trace =
        deltaTimes e.trace ++
          List.zipWith (fun t prev => t - prev) ts (e.lastUpdateTime :: ts)) ∧
    (∀ (e : GameEngine T G) (ts : List T) (t : T),
      (e.frames h (ts ++ [t])).lastUpdateTime = t) ∧
    (∀ (document : Document) (b : T) (game : G) (canvasId : String) (e : GameEngine T G)
        (ts : List T), GameEngine.new document b game canvasId = .ok e →
      deltaTimes (e.frames h ts).trace = List.zipWith (fun t prev => t - prev) ts (b :: ts)) := by
  refine ⟨fun e ts => frames_game h ts e, fun e t => gameLoop_game h e t, ?_, ?_,
    fun e ts => frames_deltaTimes h ts e, ?_, ?_⟩
  · intro e ts
    rw [frames_game, hooksOver_recording]
  · intro document b canvasId e ts hnew
    obtain ⟨canvas, context2d, _, he⟩ := (new_ok_iff document b [] canvasId e).1 hnew
    rw [frames_game, hooksOver_recording, he]
    rfl
  · intro e ts t
    rw [frames_append, gameLoop_lastUpdateTime]
  · intro document b game canvasId e ts hnew
    obtain ⟨canvas, context2d, _, he⟩ := (new_ok_iff document b game canvasId e).1 hnew
    rw [frames_deltaTimes, he]
    rfl

/-- C4 on the page `examplePage`: an engine constructed at time `100`, whose
subclass records the values of `dt`, and run at the time stamps `116`, `133`,
`150`: its `update` is handed `16`, `17`, `17`. -/
theorem gameLoop_deltaTime_is_timestamp_difference_witness :
    ∃ e : GameEngine Int (List Int),
      GameEngine.new examplePage 100 [] "gameCanvas" = .ok e ∧
      (e.frames (recordingHooks Int) [116, 133, 150]).game = [16, 17, 17] := by
  refine ⟨_, rfl, ?_⟩
  rw [(gameLoop_deltaTime_is_timestamp_difference (baseHooks Int Unit)).2.2.2.1
    examplePage 100 "gameCanvas" _ [116, 133, 150] rfl]
  decide

/-- C5: when the hooks of a frame callback call `stop()` and call no `start()`
after it (`pre` are the calls before that `stop()`, `post` the calls after it),
`gameLoop` returns the state left by `render()`: it does not call
`requestAnimationFrame`. The engine is not running, and the number of requests
made, like the number of pending ones, is what it was just after the `stop()`. -/
theorem gameLoop_no_schedule_after_stop [Sub T] (h : Hooks T G) (e : GameEngine T G)
    (timestamp : T) (pre post : List EngineCall)
    (hcalls : hookCalls h e timestamp = pre ++ EngineCall.stop :: post)
    (hpost : EngineCall.start ∉ post) :
    e.gameLoop h timestamp =
      (GameEngine.update h { e with lastUpdateTime := timestamp }
        (timestamp - e.lastUpdateTime)).render h ∧
    (e.gameLoop h timestamp).running = false ∧
    (e.gameLoop h timestamp).scheduled = (e.calls (pre ++ [EngineCall.stop])).scheduled ∧
    (e.gameLoop h timestamp).pending = (e.calls (pre ++ [EngineCall.stop])).pending := by
  have hrun : runningAfter e.running (hookCalls h e timestamp) = false := by
    rw [hcalls, runningAfter_append]
    exact runningAfter_false_of_no_start post hpost
  have hcount : (hookCalls h e timestamp).count EngineCall.start =
      pre.count EngineCall.start := by
    rw [hcalls, List.count_append, List.count_cons_of_ne (by decide),
      count_start_eq_zero post hpost, Nat.add_zero]
  have hloop := gameLoop_eq h e timestamp
  rw [hrun, hcount] at hloop
  refine ⟨?_, ?_, ?_, ?_⟩
  · have hrun' : ((GameEngine.update h { e with lastUpdateTime := timestamp }
        (timestamp - e.lastUpdateTime)).render h).running = false := by
      unfold GameEngine.render GameEngine.update
      simp only [calls_eq, runningAfter_append]
      have := hrun
      unfold hookCalls at this
      rw [runningAfter_append] at this
      exact this
    unfold GameEngine.gameLoop
    simp only [hrun']
    rfl
  · rw [hloop]
  · rw [hloop, calls_eq]
    simp [List.count_append]
  · rw [hloop, calls_eq]
    simp [List.count_append]

/-- C5 on `startedEngine` with hooks whose `update` calls `stop()`. -/
theorem gameLoop_no_schedule_after_stop_witness :
    (startedEngine.gameLoop stoppingHooks 16).running = false ∧
    (startedEngine.gameLoop stoppingHooks 16).scheduled = 1 :=
  have h := gameLoop_no_schedule_after_stop stoppingHooks startedEngine 16 [] []
    (by decide) (by decide)
  ⟨h.2.1, h.2.2.1.trans (by decide)⟩


/-- C6, as stated, fails: `startedEngine` has a request pending when `stop()`
is called; with hooks whose `update` calls `start()`, the pending callback, run
by the host, makes two further requests and leaves the engine running. -/
theorem pending_callback_of_restarting_hooks_schedules :
    startedEngine.pending = 1 ∧ startedEngine.scheduled = 1 ∧
    ∃ e', fire restartingHooks startedEngine.stop 16 = some e' ∧
      e'.scheduled = 3 ∧ e'.pending = 2 ∧ e'.running = true ∧
      ¬ e'.scheduled = startedEngine.stop.scheduled :=
  ⟨rfl, rfl, _, rfl, rfl, rfl, rfl, by decide⟩

/-- C6 (amended): `stop()` changes the running flag only: the pending requests,
the count of requests, the time of the last update, the trace and the fields of
the game are as before. When a request was pending at the time of `stop()` and
the host then runs it, and the hooks call no `start()` in that callback, the
callback calls `update` once, then `render` once, on the fields of the game, and
makes no request: the count of requests is unchanged, the pending ones are one
fewer, the engine stays stopped. -/
theorem stop_keeps_pending_callback [Sub T] (h : Hooks T G) (e : GameEngine T G)
    (timestamp : T) (hpending : 0 < e.pending)
    (hstart : EngineCall.start ∉ hookCalls h e timestamp) :
    (e.stop = { e with running := false } ∧ e.stop.running = false ∧
      e.stop.pending = e.pending ∧ e.stop.scheduled = e.scheduled ∧
      e.stop.lastUpdateTime = e.lastUpdateTime ∧ e.stop.trace = e.trace ∧
      e.stop.game = e.game ∧ e.stop.canvas = e.canvas) ∧
    ∃ e', fire h e.stop timestamp = some e' ∧
      e'.game = (h.render (h.update (timestamp - e.lastUpdateTime) e.game).1).1 ∧
      e'.trace =
        e.trace ++ [HookEvent.update (timestamp - e.lastUpdateTime), HookEvent.render] ∧
      e'.scheduled = e.scheduled ∧ e'.pending = e.pending - 1 ∧ e'.running = false := by
  refine ⟨⟨rfl, rfl, rfl, rfl, rfl, rfl, rfl, rfl⟩, ?_⟩
  have hne : ¬ e.stop.pending = 0 := by
    show ¬ e.pending = 0
    omega
  have hcalls : hookCalls h { e.stop with pending := e.stop.pending - 1 } timestamp =
      hookCalls h e timestamp := rfl
  refine ⟨_, by rw [fire, if_neg hne], ?_⟩
  rw [gameLoop_eq, hcalls, count_start_eq_zero _ hstart]
  have hrun : runningAfter false (hookCalls h e timestamp) = false :=
    runningAfter_false_of_no_start _ hstart
  refine ⟨rfl, rfl, ?_, ?_, ?_⟩
  · show e.scheduled + 0 + (if runningAfter false (hookCalls h e timestamp) = true then 1 else 0)
      = e.scheduled
    rw [hrun]; simp
  · show e.pending - 1 + 0 +
      (if runningAfter false (hookCalls h e timestamp) = true then 1 else 0) = e.pending - 1
    rw [hrun]; simp
  · exact hrun

/-- The amended C6 on an engine with a request pending whose subclass logs the
calls of its hooks: stopped and then run at time `16`, it logs one `update` and
then one `render`, and makes no request. -/
theorem stop_keeps_pending_callback_witness :
    ∃ e', fire (loggingHooks Int)
        (GameEngine.stop { startedEngine with game := ([] : List (HookEvent Int)) }) 16 =
          some e' ∧
      e'.game = [HookEvent.update 16, HookEvent.render] ∧
      e'.scheduled = 1 ∧ e'.pending = 0 ∧ e'.running = false :=
  have h := stop_keeps_pending_callback (loggingHooks Int)
    { startedEngine with game := ([] : List (HookEvent Int)) } 16 (by decide) (by decide)
  match h.2 with
  | ⟨e', hfire, hgame, _, hsched, hpend, hrun⟩ => ⟨e', hfire, hgame, hsched, hpend, hrun⟩

/-- C7, as stated, fails: after `start()` called twice on a freshly constructed
engine, two frame callbacks are pending. -/
theorem start_twice_two_pending :
    ∃ e₀ e : GameEngine Int Unit,
      GameEngine.new examplePage 0 () "gameCanvas" = .ok e₀ ∧
      run (baseHooks Int Unit) e₀ [Action.start, Action.start] = some e ∧
      e.pending = 2 ∧ ¬ e.pending ≤ 1 :=
  ⟨_, _, rfl, rfl, rfl, by decide⟩

theorem stepIdleStart_pending [Sub T] (h : Hooks T G)
    (hupdate : ∀ dt g, EngineCall.start ∉ (h.update dt g).2)
    (hrender : ∀ g, EngineCall.start ∉ (h.render g).2)
    (e e' : GameEngine T G) (a : Action T) (hstep : stepIdleStart h e a = some e')
    (hinv : e.pending ≤ 1) : e'.pending ≤ 1 := by
  cases a with
  | start =>
    unfold stepIdleStart at hstep
    split_ifs at hstep with h0
    simp only [Option.some.injEq] at hstep
    rw [← hstep]
    show e.pending + 1 ≤ 1
    omega
  | stop =>
    simp only [stepIdleStart, Option.some.injEq] at hstep
    rw [← hstep]
    exact hinv
  | frame timestamp =>
    unfold stepIdleStart fire at hstep
    split_ifs at hstep with h0
    simp only [Option.some.injEq] at hstep
    have hcalls : EngineCall.start ∉
        hookCalls h { e with pending := e.pending - 1 } timestamp := by
      unfold hookCalls
      simp only [List.mem_append, not_or]
      exact ⟨hupdate _ _, hrender _⟩
    rw [← hstep, gameLoop_eq, count_start_eq_zero _ hcalls]
    show e.pending - 1 + 0 + (if _ then 1 else 0) ≤ 1
    split_ifs <;> omega

theorem runIdleStart_pending [Sub T] (h : Hooks T G)
    (hupdate : ∀ dt g, EngineCall.start ∉ (h.update dt g).2)
    (hrender : ∀ g, EngineCall.start ∉ (h.render g).2)
    (actions : List (Action T)) (e e' : GameEngine T G)
    (hrun : runIdleStart h e actions = some e') (hinv : e.pending ≤ 1) : e'.pending ≤ 1 := by
  induction actions generalizing e with
  | nil =>
    simp only [runIdleStart, Option.some.injEq] at hrun
    rw [← hrun]; exact hinv
  | cons a as ih =>
    simp only [runIdleStart] at hrun
    cases hstep : stepIdleStart h e a with
    | none => rw [hstep] at hrun; simp at hrun
    | some e₁ =>
      rw [hstep] at hrun
      exact ih e₁ hrun (stepIdleStart_pending h hupdate hrender e e₁ a hstep hinv)

/-- C7 (amended): in every state reached from a freshly constructed engine by
calls of `start()` and `stop()` and runs of pending frame callbacks, in which
`start()` is called only while no frame callback is pending or running (the
hooks call no `start()`), at most one frame callback is pending. -/
theorem pending_le_one_of_idle_start [Sub T] (h : Hooks T G)
    (hupdate : ∀ dt g, EngineCall.start ∉ (h.update dt g).2)
    (hrender : ∀ g, EngineCall.start ∉ (h.render g).2)
    (document : Document) (now : T) (game : G) (canvasId : String)
    (e₀ e : GameEngine T G) (actions : List (Action T))
    (hnew : GameEngine.new document now game canvasId = .ok e₀)
    (hrun : runIdleStart h e₀ actions = some e) : e.pending ≤ 1 := by
  obtain ⟨canvas, context2d, _, he⟩ := (new_ok_iff document now game canvasId e₀).1 hnew
  refine runIdleStart_pending h hupdate hrender actions e₀ e hrun ?_
  rw [he]
  exact Nat.zero_le 1

/-- The amended C7 on the page `examplePage`: start, a frame, stop, the last
frame, start again. -/
theorem pending_le_one_of_idle_start_witness :
    ∃ e₀ e : GameEngine Int Unit,
      GameEngine.new examplePage 0 () "gameCanvas" = .ok e₀ ∧
      runIdleStart (baseHooks Int Unit) e₀
        [Action.start, Action.frame 16, Action.stop, Action.frame 33, Action.start] = some e ∧
      e.pending ≤ 1 :=
  ⟨_, _, rfl, rfl,
    pending_le_one_of_idle_start (baseHooks Int Unit) (by intro _ _; simp [baseHooks])
      (by intro _; simp [baseHooks]) examplePage 0 () "gameCanvas" _ _
      [Action.start, Action.frame 16, Action.stop, Action.frame 33, Action.start] rfl rfl⟩

theorem step_trace [Sub T] (h : Hooks T G) (e e' : GameEngine T G) (a : Action T)
    (hstep : step h e a = some e') : ∃ dts, e'.trace = e.trace ++ frameEvents dts := by
  cases a with
  | start =>
    simp only [step, Option.some.injEq] at hstep
    exact ⟨[], by rw [← hstep]; simp [frameEvents, GameEngine.start, requestAnimationFrame]⟩
  | stop =>
    simp only [step, Option.some.injEq] at hstep
    exact ⟨[], by rw [← hstep]; simp [frameEvents, GameEngine.stop]⟩
  | frame timestamp =>
    unfold step fire at hstep
    split_ifs at hstep with h0
    simp only [Option.some.injEq] at hstep
    exact ⟨[timestamp - e.lastUpdateTime], by rw [← hstep, gameLoop_trace]; rfl⟩

theorem frameEvents_append (dts dts' : List T) :
    frameEvents (dts ++ dts') = frameEvents dts ++ frameEvents dts' := by
  induction dts with
  | nil => rfl
  | cons dt dts ih => simp [frameEvents, ih]

theorem run_trace [Sub T] (h : Hooks T G) (actions : List (Action T)) (e e' : GameEngine T G)
    (hrun : run h e actions = some e') : ∃ dts, e'.trace = e.trace ++ frameEvents dts := by
  induction actions generalizing e with
  | nil =>
    simp only [run, Option.some.injEq] at hrun
    exact ⟨[], by rw [← hrun]; simp [frameEvents]⟩
  | cons a as ih =>
    simp only [run] at hrun
    cases hstep : step h e a with
    | none => rw [hstep] at hrun; simp at hrun
    | some e₁ =>
      rw [hstep] at hrun
      obtain ⟨dts₁, h₁⟩ := step_trace h e e₁ a hstep
      obtain ⟨dts₂, h₂⟩ := ih e₁ hrun
      exact ⟨dts₁ ++ dts₂, by rw [h₂, h₁, frameEvents_append, List.append_assoc]⟩

theorem frameEvents_render_after_update (dts : List T) (i : Nat)
    (hi : (frameEvents dts)[i]? = some HookEvent.render) :
    0 < i ∧ ∃ dt, (frameEvents dts)[i - 1]? = some (HookEvent.update dt) := by
  induction dts generalizing i with
  | nil => simp [frameEvents] at hi
  | cons dt dts ih =>
    match i with
    | 0 => simp [frameEvents] at hi
    | 1 => exact ⟨Nat.one_pos, dt, by simp [frameEvents]⟩
    | j + 2 =>
      have hj : (frameEvents dts)[j]? = some HookEvent.render := by
        simpa [frameEvents] using hi
      obtain ⟨hpos, dt', hdt'⟩ := ih j hj
      refine ⟨Nat.succ_pos _, dt', ?_⟩
      have hidx : j + 2 - 1 = (j - 1) + 2 := by omega
      rw [hidx]
      simpa [frameEvents] using hdt'

theorem step_logging_game [Sub T] (e e' : GameEngine T (List (HookEvent T))) (a : Action T)
    (hstep : step (loggingHooks T) e a = some e') :
    ∃ dts, e'.game = e.game ++ frameEvents dts := by
  cases a with
  | start =>
    simp only [step, Option.some.injEq] at hstep
    exact ⟨[], by rw [← hstep]; simp [frameEvents, GameEngine.start, requestAnimationFrame]⟩
  | stop =>
    simp only [step, Option.some.injEq] at hstep
    exact ⟨[], by rw [← hstep]; simp [frameEvents, GameEngine.stop]⟩
  | frame timestamp =>
    unfold step fire at hstep
    split_ifs at hstep with h0
    simp only [Option.some.injEq] at hstep
    refine ⟨[timestamp - e.lastUpdateTime], ?_⟩
    rw [← hstep, gameLoop_game]
    simp [hooksOnce, loggingHooks, frameEvents]

theorem run_logging_game [Sub T] (actions : List (Action T))
    (e e' : GameEngine T (List (HookEvent T)))
    (hrun : run (loggingHooks T) e actions = some e') :
    ∃ dts, e'.game = e.game ++ frameEvents dts := by
  induction actions generalizing e with
  | nil =>
    simp only [run, Option.some.injEq] at hrun
    exact ⟨[], by rw [← hrun]; simp [frameEvents]⟩
  | cons a as ih =>
    simp only [run] at hrun
    cases hstep : step (loggingHooks T) e a with
    | none => rw [hstep] at hrun; simp at hrun
    | some e₁ =>
      rw [hstep] at hrun
      obtain ⟨dts₁, h₁⟩ := step_logging_game e e₁ a hstep
      obtain ⟨dts₂, h₂⟩ := ih e₁ hrun
      exact ⟨dts₁ ++ dts₂, by rw [h₂, h₁, frameEvents_append, List.append_assoc]⟩

/-- C8: every invocation of `gameLoop` calls `update` once and then `render`
once, in that order and with nothing between, whatever the running flag: the
fields of the subclass are those `render` returns on what `update` returned, and
the trace grows by exactly these two invocations. Hence for a subclass that logs
the calls of its hooks, the log of any sequence of calls of `start()`, `stop()`
and frame callbacks is a sequence of pairs `update`, `render`, one per callback,
and in a log that starts empty every `render` comes right after an `update`,
that of the same callback; the trace of any hooks has the same form. -/
theorem gameLoop_update_then_render [Sub T] (h : Hooks T G) :
    (∀ (e : GameEngine T G) (timestamp : T),
      (e.gameLoop h timestamp).game =
        (h.render (h.update (timestamp - e.lastUpdateTime) e.game).1).1 ∧
      (e.gameLoop h timestamp).trace =
        e.trace ++ [HookEvent.update (timestamp - e.lastUpdateTime), HookEvent.render]) ∧
    (∀ (e : GameEngine T (List (HookEvent T))) (timestamp : T),
      (e.gameLoop (loggingHooks T) timestamp).game =
        e.game ++ [HookEvent.update (timestamp - e.lastUpdateTime), HookEvent.render]) ∧
    (∀ (e e' : GameEngine T (List (HookEvent T))) (actions : List (Action T)),
      run (loggingHooks T) e actions = some e' →
      ∃ dts, e'.game = e.game ++ frameEvents dts) ∧
    (∀ (e e' : GameEngine T (List (HookEvent T))) (actions : List (Action T)),
      e.game = [] → run (loggingHooks T) e actions = some e' →
      ∀ i, e'.game[i]? = some HookEvent.render →
        0 < i ∧ ∃ dt, e'.game[i - 1]? = some (HookEvent.update dt)) ∧
    (∀ (e e' : GameEngine T G) (actions : List (Action T)), run h e actions = some e' →
      ∃ dts, e'.trace = e.trace ++ frameEvents dts) ∧
    (∀ (e e' : GameEngine T G) (actions : List (Action T)), e.trace = [] →
      run h e actions = some e' → ∀ i, e'.trace[i]? = some HookEvent.render →
        0 < i ∧ ∃ dt, e'.trace[i - 1]? = some (HookEvent.update dt)) := by
  refine ⟨fun e t => ⟨gameLoop_game h e t, gameLoop_trace h e t⟩, ?_,
    fun e e' actions hrun => run_logging_game actions e e' hrun, ?_,
    fun e e' actions hrun => run_trace h actions e e' hrun, ?_⟩
  · intro e t
    rw [gameLoop_game]
    simp [hooksOnce, loggingHooks]
  · intro e e' actions hnil hrun i hi
    obtain ⟨dts, hdts⟩ := run_logging_game actions e e' hrun
    rw [hnil, List.nil_append] at hdts
    rw [hdts] at hi ⊢
    exact frameEvents_render_after_update dts i hi
  · intro e e' actions hnil hrun i hi
    obtain ⟨dts, hdts⟩ := run_trace h actions e e' hrun
    rw [hnil, List.nil_append] at hdts
    rw [hdts] at hi ⊢
    exact frameEvents_render_after_update dts i hi

/-- C8 on an engine whose subclass logs the calls of its hooks: a frame while
running, `stop()`, and the last frame. -/
theorem gameLoop_update_then_render_witness :
    ∃ e', run (loggingHooks Int) { startedEngine with game := ([] : List (HookEvent Int)) }
        [Action.frame 16, Action.stop, Action.frame 33] = some e' ∧
      e'.game = [HookEvent.update 16, HookEvent.render, HookEvent.update 17, HookEvent.render] ∧
      (0 < 3 ∧ ∃ dt, e'.game[3 - 1]? = some (HookEvent.update dt)) :=
  ⟨_, rfl, rfl,
    (gameLoop_update_then_render (baseHooks Int Unit)).2.2.2.1
      { startedEngine with game := ([] : List (HookEvent Int)) } _
      [Action.frame 16, Action.stop, Action.frame 33] rfl rfl 3 rfl⟩

/-- C9, as stated, fails: on `examplePage` the lookup of the id `board` finds a
`div`, and the constructor fails all the same, with the `TypeError` of
`this.canvas.getContext('2d')`: no engine is made. -/
theorem new_on_other_element_throws :
    examplePage "board" = some (Element.other "div") ∧
    examplePage "board" ≠ none ∧
    (GameEngine.new examplePage 100 () "board" : Except EngineError (GameEngine Int Unit)) =
      .error EngineError.typeError ∧
    ¬ ∃ e : GameEngine Int Unit, GameEngine.new examplePage 100 () "board" = .ok e := by
  refine ⟨rfl, by decide, rfl, ?_⟩
  rintro ⟨e, he⟩
  cases he

/-- C9 (amended): `new GameEngine(canvasId)` throws the construction error,
with the message `Canvas not found: ` followed by the id, exactly when the
lookup of the id finds nothing. It makes an engine exactly when the lookup finds
a canvas; the new engine holds that canvas and its context, is not running, has
the time read at construction as `lastUpdateTime`, and no frame callback has
been requested. On an element that is not a canvas it throws a `TypeError`. -/
theorem new_fails_iff_canvas_missing (document : Document) (now : T) (game : G)
    (canvasId : String) :
    ((GameEngine.new document now game canvasId : Except EngineError (GameEngine T G)) =
        .error (EngineError.error ("Canvas not found: " ++ canvasId)) ↔
      document canvasId = none) ∧
    ((∃ message, (GameEngine.new document now game canvasId :
          Except EngineError (GameEngine T G)) = .error (EngineError.error message)) ↔
      document canvasId = none) ∧
    ((∃ e : GameEngine T G, GameEngine.new document now game canvasId = .ok e) ↔
      ∃ canvas context2d, document canvasId = some (Element.canvas canvas context2d)) ∧
    (∀ canvas context2d, document canvasId = some (Element.canvas canvas context2d) →
      ∃ e : GameEngine T G, GameEngine.new document now game canvasId = .ok e ∧
        e.canvas = canvas ∧ e.ctx = context2d ∧ e.running = false ∧
        e.lastUpdateTime = now ∧ e.pending = 0 ∧ e.scheduled = 0 ∧ e.trace = [] ∧
        e.game = game) ∧
    (∀ tagName, document canvasId = some (Element.other tagName) →
      (GameEngine.new document now game canvasId : Except EngineError (GameEngine T G)) =
        .error EngineError.typeError) := by
  unfold GameEngine.new
  cases hdoc : document canvasId with
  | none => simp
  | some element =>
    cases element with
    | other tag => simp
    | canvas canvas context2d =>
      refine ⟨by simp, by simp, by simp, ?_, by simp⟩
      intro c x hc
      cases hc
      exact ⟨_, rfl, rfl, rfl, rfl, rfl, rfl, rfl, rfl, rfl⟩

/-- The amended C9 on the page `examplePage`: the id `gameCanvas` is a canvas,
the id `nothing` is not found. -/
theorem new_fails_iff_canvas_missing_witness :
    (∃ e : GameEngine Int Unit, GameEngine.new examplePage 100 () "gameCanvas" = .ok e ∧
      e.canvas = { width := 480, height := 320 } ∧
      e.ctx = some { canvas := { width := 480, height := 320 } } ∧ e.running = false ∧
      e.lastUpdateTime = 100 ∧ e.pending = 0 ∧ e.scheduled = 0 ∧ e.trace = [] ∧ e.game = ()) ∧
    (GameEngine.new examplePage 100 () "nothing" : Except EngineError (GameEngine Int Unit)) =
      .error (EngineError.error ("Canvas not found: " ++ "nothing")) :=
  ⟨(new_fails_iff_canvas_missing examplePage (100 : Int) () "gameCanvas").2.2.2.1 _ _ rfl,
    (new_fails_iff_canvas_missing examplePage (100 : Int) () "nothing").1.2 (by decide)⟩

end EngineProperties

/-! ## Properties of Tic-Tac-Toe -/

theorem range_size : List.range size = [0, 1, 2] := by decide

/-- C10: on a board of three rows of three cells, `checkWinner(p)` is true
exactly when some row, some column, the main diagonal or the anti-diagonal
consists entirely of `p`; this holds for every string `p`, the marks `X` and `O`
among them. -/
theorem checkWinner_iff_line (board : Board) (p : String) (hrows : board.length = 3)
    (hcols : ∀ row ∈ board, row.length = 3) :
    checkWinner board p = true ↔
      (∃ i : Fin 3, ∀ j : Fin 3, cellAt board i.val j.val = some p) ∨
      (∃ j : Fin 3, ∀ i : Fin 3, cellAt board i.val j.val = some p) ∨
      (∀ i : Fin 3, cellAt board i.val i.val = some p) ∨
      (∀ i : Fin 3, cellAt board i.val (2 - i.val) = some p) := by
  match board, hrows, hcols with
  | [r0, r1, r2], _, hcols =>
    have h0 := hcols r0 (by simp)
    have h1 := hcols r1 (by simp)
    have h2 := hcols r2 (by simp)
    match r0, h0, r1, h1, r2, h2 with
    | [a, b, c], _, [d, e, f], _, [g, h, i], _ =>
      simp only [checkWinner, range_size, cellAt, Fin.exists_fin_succ, Fin.forall_fin_succ]
      simp [size, or_assoc]

/-- C10 on the two boards of the specification: a row of `X`, and the
anti-diagonal of `X`. -/
theorem checkWinner_iff_line_witness :
    checkWinner [["X", "X", "X"], ["O", "O", ""], ["", "", "O"]] "X" = true ∧
    checkWinner [["", "", "X"], ["", "X", ""], ["X", "", ""]] "X" = true ∧
    checkWinner [["", "", "X"], ["", "X", ""], ["X", "", ""]] "O" = false :=
  ⟨(checkWinner_iff_line [["X", "X", "X"], ["O", "O", ""], ["", "", "O"]] "X"
      (by decide) (by decide)).2 (Or.inl ⟨0, by decide⟩),
    (checkWinner_iff_line [["", "", "X"], ["", "X", ""], ["X", "", ""]] "X"
      (by decide) (by decide)).2 (Or.inr (Or.inr (Or.inr (by decide)))),
    by decide⟩

/-! ## Lemmas on the brick loops of Breakout -/

theorem hitsBrick_congr (ball ball' : Ball) (config : BrickConfig) (b b' : Brick)
    (hx : ball'.x = ball.x) (hy : ball'.y = ball.y) (hr : ball'.radius = ball.radius)
    (hbx : b'.x = b.x) (hby : b'.y = b.y) :
    hitsBrick ball' config b' = hitsBrick ball config b := by
  simp [hitsBrick, hx, hy, hr, hbx, hby]

theorem brickRel_refl (ball : Ball) (config : BrickConfig) (b : Brick) :
    BrickRel ball config b b :=
  ⟨rfl, rfl, Or.inl rfl⟩

theorem brickRel_trans {ball ball' : Ball} {config : BrickConfig} {b b' b'' : Brick}
    (hx : ball'.x = ball.x) (hy : ball'.y = ball.y) (hr : ball'.radius = ball.radius)
    (h₁ : BrickRel ball config b b') (h₂ : BrickRel ball' config b' b'') :
    BrickRel ball config b b'' := by
  obtain ⟨hx₁, hy₁, hs₁⟩ := h₁
  obtain ⟨hx₂, hy₂, hs₂⟩ := h₂
  refine ⟨hx₂.trans hx₁, hy₂.trans hy₁, ?_⟩
  rcases hs₁ with e₁ | ⟨e₁, z₁, hit₁⟩
  · rcases hs₂ with e₂ | ⟨e₂, z₂, hit₂⟩
    · exact Or.inl (e₂.trans e₁)
    · right
      refine ⟨e₁ ▸ e₂, z₂, ?_⟩
      rw [← hitsBrick_congr ball ball' config b b' hx hy hr hx₁ hy₁]
      exact hit₂
  · rcases hs₂ with e₂ | ⟨e₂, _, _⟩
    · exact Or.inr ⟨e₁, e₂.trans z₁, hit₁⟩
    · rw [z₁] at e₂
      exact absurd e₂ (by decide)

theorem forall₂_refl_of {α : Type} {R : α → α → Prop} (h : ∀ a, R a a) (l : List α) :
    List.Forall₂ R l l := by
  induction l with
  | nil => exact List.Forall₂.nil
  | cons a l ih => exact List.Forall₂.cons (h a) ih

theorem forall₂_trans_of {α : Type} {R S U : α → α → Prop}
    (h : ∀ a b c, R a b → S b c → U a c) {l₁ l₂ l₃ : List α}
    (h₁ : List.Forall₂ R l₁ l₂) (h₂ : List.Forall₂ S l₂ l₃) : List.Forall₂ U l₁ l₃ := by
  induction h₁ generalizing l₃ with
  | nil => cases h₂; exact List.Forall₂.nil
  | cons hab _ ih =>
    cases h₂ with
    | cons hbc hrest => exact List.Forall₂.cons (h _ _ _ hab hbc) (ih hrest)

theorem forall₂_set {α : Type} {R : α → α → Prop} (hrefl : ∀ a, R a a) (l : List α) (n : Nat)
    (a' : α) (h : ∀ a, l.get? n = some a → R a a') : List.Forall₂ R l (l.set n a') := by
  induction l generalizing n with
  | nil => exact List.Forall₂.nil
  | cons a l ih =>
    cases n with
    | zero => exact List.Forall₂.cons (h a rfl) (forall₂_refl_of hrefl l)
    | succ n => exact List.Forall₂.cons (hrefl a) (ih n (fun b hb => h b (by simpa using hb)))

theorem forall₂_modify {α : Type} {R : α → α → Prop} (hrefl : ∀ a, R a a) (l : List α)
    (n : Nat) (f : α → α) (h : ∀ a, l.get? n = some a → R a (f a)) :
    List.Forall₂ R l (l.modify f n) := by
  induction l generalizing n with
  | nil => cases n <;> exact List.Forall₂.nil
  | cons a l ih =>
    cases n with
    | zero => exact List.Forall₂.cons (h a rfl) (forall₂_refl_of hrefl l)
    | succ n => exact List.Forall₂.cons (hrefl a) (ih n (fun b hb => h b (by simpa using hb)))

theorem brickPhase_refl (s : Breakout) : BrickPhase s s :=
  ⟨rfl, rfl, rfl, rfl, rfl, rfl, rfl, rfl, rfl, rfl, rfl, Or.inl rfl,
    forall₂_refl_of (fun row => forall₂_refl_of (brickRel_refl _ _) row) _⟩

theorem brickPhase_trans {s s' s'' : Breakout} (h₁ : BrickPhase s s') (h₂ : BrickPhase s' s'') :
    BrickPhase s s'' := by
  obtain ⟨a₁, b₁, c₁, d₁, e₁, f₁, x₁, y₁, r₁, sp₁, dx₁, dy₁, br₁⟩ := h₁
  obtain ⟨a₂, b₂, c₂, d₂, e₂, f₂, x₂, y₂, r₂, sp₂, dx₂, dy₂, br₂⟩ := h₂
  refine ⟨a₂.trans a₁, b₂.trans b₁, c₂.trans c₁, d₂.trans d₁, e₂.trans e₁, f₂.trans f₁,
    x₂.trans x₁, y₂.trans y₁, r₂.trans r₁, sp₂.trans sp₁, dx₂.trans dx₁, ?_, ?_⟩
  · rcases dy₁ with h | h <;> rcases dy₂ with h' | h' <;> rw [h', h] <;> simp
  · rw [d₁] at br₂
    have hrow : ∀ l₁ l₂ l₃ : List Brick,
        List.Forall₂ (BrickRel s.ball s.brickConfig) l₁ l₂ →
        List.Forall₂ (BrickRel s'.ball s.brickConfig) l₂ l₃ →
        List.Forall₂ (BrickRel s.ball s.brickConfig) l₁ l₃ :=
      fun _ _ _ hr hs =>
        forall₂_trans_of (R := BrickRel s.ball s.brickConfig)
          (S := BrickRel s'.ball s.brickConfig) (U := BrickRel s.ball s.brickConfig)
          (fun _ _ _ hb hb' => brickRel_trans x₁ y₁ r₁ hb hb') hr hs
    exact forall₂_trans_of (R := List.Forall₂ (BrickRel s.ball s.brickConfig))
      (S := List.Forall₂ (BrickRel s'.ball s.brickConfig))
      (U := List.Forall₂ (BrickRel s.ball s.brickConfig)) hrow br₁ br₂

theorem brickStep_phase (s : Breakout) (r c : Nat) : BrickPhase s (brickStep s r c) := by
  unfold brickStep
  cases hb : brickAt s.bricks r c with
  | none => exact brickPhase_refl s
  | some brick =>
    simp only []
    split_ifs with hstatus hhit
    · refine ⟨rfl, rfl, rfl, rfl, rfl, rfl, rfl, rfl, rfl, rfl, rfl, Or.inr rfl, ?_⟩
      refine forall₂_modify (fun row => forall₂_refl_of (brickRel_refl _ _) row) _ _ _ ?_
      intro row hrow
      refine forall₂_set (brickRel_refl _ _) _ _ _ ?_
      intro b hbc
      have : brick = b := by
        unfold brickAt at hb
        rw [hrow] at hb
        simp only [Option.some_bind] at hb
        rw [hbc] at hb
        exact (Option.some.inj hb).symm
      subst this
      exact ⟨rfl, rfl, Or.inr ⟨hstatus, rfl, hhit⟩⟩
    · exact brickPhase_refl s
    · exact brickPhase_refl s

theorem foldl_phase {ι : Type} (f : Breakout → ι → Breakout)
    (hf : ∀ s i, BrickPhase s (f s i)) (l : List ι) (s : Breakout) :
    BrickPhase s (l.foldl f s) := by
  induction l generalizing s with
  | nil => exact brickPhase_refl s
  | cons i l ih => exact brickPhase_trans (hf s i) (ih (f s i))

theorem brickCollisions_phase (s : Breakout) : BrickPhase s (brickCollisions s) := by
  unfold brickCollisions
  exact foldl_phase _ (fun s r => foldl_phase _ (fun s c => brickStep_phase s r c) _ s) _ s

/-! ## Lemmas on the sections of `update` -/

theorem update_eq (dt : ℚ) (s : Breakout) :
    BreakoutGame.update dt s =
      (brickCollisions (paddleCollision (wallCollisions (moved dt s)).1),
        (wallCollisions (moved dt s)).2) := rfl

theorem movePaddle_rest (delta : ℚ) (s : Breakout) :
    (movePaddle delta s).ball = s.ball ∧ (movePaddle delta s).bricks = s.bricks ∧
    (movePaddle delta s).brickConfig = s.brickConfig ∧
    (movePaddle delta s).canvasWidth = s.canvasWidth ∧
    (movePaddle delta s).canvasHeight = s.canvasHeight ∧
    (movePaddle delta s).paddle.width = s.paddle.width ∧
    (movePaddle delta s).paddle.height = s.paddle.height ∧
    (movePaddle delta s).paddle.y = s.paddle.y := by
  unfold movePaddle
  cases s.rightPressed <;> cases hl : s.leftPressed <;> simp [hl] <;>
    split_ifs <;> simp [hl]

theorem moved_ball (dt : ℚ) (s : Breakout) :
    (moved dt s).ball.x = s.ball.x + s.ball.dx * (dt / 1000) ∧
    (moved dt s).ball.y = s.ball.y + s.ball.dy * (dt / 1000) ∧
    (moved dt s).ball.radius = s.ball.radius ∧ (moved dt s).ball.speed = s.ball.speed ∧
    (moved dt s).ball.dx = s.ball.dx ∧ (moved dt s).ball.dy = s.ball.dy := by
  have h := (movePaddle_rest (dt / 1000) s).1
  simp [moved, moveBall, h]

theorem moved_rest (dt : ℚ) (s : Breakout) :
    (moved dt s).bricks = s.bricks ∧ (moved dt s).brickConfig = s.brickConfig ∧
    (moved dt s).canvasWidth = s.canvasWidth ∧ (moved dt s).canvasHeight = s.canvasHeight ∧
    (moved dt s).paddle = (movePaddle (dt / 1000) s).paddle := by
  have h := movePaddle_rest (dt / 1000) s
  simp [moved, moveBall, h]

theorem wallCollisions_rest (s : Breakout) :
    (wallCollisions s).1.ball.x = s.ball.x ∧ (wallCollisions s).1.ball.y = s.ball.y ∧
    (wallCollisions s).1.ball.radius = s.ball.radius ∧
    (wallCollisions s).1.ball.speed = s.ball.speed ∧
    (wallCollisions s).1.paddle = s.paddle ∧ (wallCollisions s).1.bricks = s.bricks ∧
    (wallCollisions s).1.brickConfig = s.brickConfig ∧
    (wallCollisions s).1.canvasWidth = s.canvasWidth ∧
    (wallCollisions s).1.canvasHeight = s.canvasHeight := by
  unfold wallCollisions
  simp only []
  split_ifs <;> simp

theorem wallCollisions_dy (s : Breakout) :
    (wallCollisions s).1.ball.dy = if s.ball.y - s.ball.radius < 0 then -s.ball.dy else s.ball.dy := by
  unfold wallCollisions
  simp only []
  split_ifs <;> simp_all

theorem wallCollisions_calls (s : Breakout) :
    (wallCollisions s).2 =
      if s.ball.y + s.ball.radius > s.canvasHeight then [EngineCall.stop] else [] := by
  unfold wallCollisions
  simp only []
  split_ifs <;> simp_all

theorem paddleCollision_rest (s : Breakout) :
    (paddleCollision s).ball.x = s.ball.x ∧ (paddleCollision s).ball.y = s.ball.y ∧
    (paddleCollision s).ball.radius = s.ball.radius ∧
    (paddleCollision s).ball.speed = s.ball.speed ∧
    (paddleCollision s).paddle = s.paddle ∧ (paddleCollision s).bricks = s.bricks ∧
    (paddleCollision s).brickConfig = s.brickConfig ∧
    (paddleCollision s).canvasWidth = s.canvasWidth ∧
    (paddleCollision s).canvasHeight = s.canvasHeight := by
  unfold paddleCollision
  split_ifs <;> simp

theorem hitsPaddle_congr (s s' : Breakout) (hx : s'.ball.x = s.ball.x)
    (hy : s'.ball.y = s.ball.y) (hr : s'.ball.radius = s.ball.radius)
    (hp : s'.paddle = s.paddle) : hitsPaddle s' = hitsPaddle s := by
  simp [hitsPaddle, hx, hy, hr, hp]

theorem hitPoint_congr (s s' : Breakout) (hx : s'.ball.x = s.ball.x)
    (hp : s'.paddle = s.paddle) : hitPoint s' = hitPoint s := by
  simp [hitPoint, hx, hp]

theorem foldl_fixed {ι : Type} (f : Breakout → ι → Breakout) (s : Breakout)
    (h : ∀ i, f s i = s) (l : List ι) : l.foldl f s = s := by
  induction l with
  | nil => rfl
  | cons i l ih => rw [List.foldl_cons, h i, ih]

theorem brickCollisions_of_no_hit (s : Breakout)
    (h : ∀ r c brick, brickAt s.bricks r c = some brick → brick.status = 1 →
      hitsBrick s.ball s.brickConfig brick = false) : brickCollisions s = s := by
  have hstep : ∀ r c, brickStep s r c = s := by
    intro r c
    unfold brickStep
    cases hb : brickAt s.bricks r c with
    | none => rfl
    | some brick =>
      simp only []
      split_ifs with hstatus hhit
      · rw [h r c brick hb hstatus] at hhit
        exact absurd hhit (by decide)
      · rfl
      · rfl
  unfold brickCollisions
  exact foldl_fixed _ s (fun r => foldl_fixed _ s (fun c => hstep r c) _) _

theorem forall₂_get? {α : Type} {R : α → α → Prop} {l l' : List α} (h : List.Forall₂ R l l')
    (n : Nat) (a : α) (ha : l.get? n = some a) : ∃ b, l'.get? n = some b ∧ R a b := by
  induction h generalizing n with
  | nil => simp at ha
  | cons hab _ ih =>
    cases n with
    | zero =>
      simp only [List.get?_cons_zero, Option.some.injEq] at ha
      subst ha
      exact ⟨_, rfl, hab⟩
    | succ n => exact ih n (by simpa using ha)

theorem forall₂_length {α : Type} {R : α → α → Prop} {l l' : List α}
    (h : List.Forall₂ R l l') : l'.length = l.length := by
  induction h with
  | nil => rfl
  | cons _ _ ih => simp [ih]

theorem countP_le_of_forall₂ {ball : Ball} {config : BrickConfig} {row row' : List Brick}
    (h : List.Forall₂ (BrickRel ball config) row row') :
    row'.countP (fun b => b.status == 1) ≤ row.countP (fun b => b.status == 1) := by
  induction h with
  | nil => exact Nat.le_refl _
  | @cons b b' l l' hb _ ih =>
    obtain ⟨_, _, hs⟩ := hb
    rw [List.countP_cons, List.countP_cons]
    rcases hs with e | ⟨e, z, _⟩
    · rw [e]; omega
    · simp only [z, e]
      simp
      omega

theorem liveBricks_le_of_forall₂ {ball : Ball} {config : BrickConfig}
    {bricks bricks' : List (List Brick)}
    (h : List.Forall₂ (List.Forall₂ (BrickRel ball config)) bricks bricks') :
    liveBricks bricks' ≤ liveBricks bricks := by
  unfold liveBricks
  induction h with
  | nil => exact Nat.le_refl _
  | cons hrow _ ih =>
    simp only [List.map_cons, List.sum_cons]
    exact Nat.add_le_add (countP_le_of_forall₂ hrow) ih

theorem update_bricks_rel (s : Breakout) (dt : ℚ) :
    List.Forall₂ (List.Forall₂ (BrickRel (moved dt s).ball s.brickConfig)) s.bricks
      (BreakoutGame.update dt s).1.bricks := by
  rw [update_eq]
  have hw := wallCollisions_rest (moved dt s)
  have hp := paddleCollision_rest (wallCollisions (moved dt s)).1
  have hm := moved_rest dt s
  have hphase := (brickCollisions_phase (paddleCollision (wallCollisions (moved dt s)).1)).2.2.2.2.2.2.2.2.2.2.2.2
  rw [hp.2.2.2.2.2.1, hw.2.2.2.2.2.1, hm.1, hp.2.2.2.2.2.2.1, hw.2.2.2.2.2.2.1, hm.2.1] at hphase
  have hcongr : ∀ b : Brick,
      hitsBrick (paddleCollision (wallCollisions (moved dt s)).1).ball s.brickConfig b =
        hitsBrick (moved dt s).ball s.brickConfig b := fun b =>
    hitsBrick_congr _ _ _ _ _ (hp.1.trans hw.1) (hp.2.1.trans hw.2.1)
      (hp.2.2.1.trans hw.2.2.1) rfl rfl
  refine List.Forall₂.imp ?_ hphase
  intro row row' hrow
  refine List.Forall₂.imp ?_ hrow
  intro b b' hb
  exact ⟨hb.1, hb.2.1, hb.2.2.imp id (fun h => ⟨h.1, h.2.1, (hcongr b) ▸ h.2.2⟩)⟩

theorem update_ball_xy (s : Breakout) (dt : ℚ) :
    (BreakoutGame.update dt s).1.ball.x = (moved dt s).ball.x ∧
    (BreakoutGame.update dt s).1.ball.y = (moved dt s).ball.y ∧
    (BreakoutGame.update dt s).1.ball.radius = s.ball.radius := by
  rw [update_eq]
  have hw := wallCollisions_rest (moved dt s)
  have hp := paddleCollision_rest (wallCollisions (moved dt s)).1
  have hb := brickCollisions_phase (paddleCollision (wallCollisions (moved dt s)).1)
  obtain ⟨_, _, _, _, _, _, hx, hy, hr, _⟩ := hb
  exact ⟨hx.trans (hp.1.trans hw.1), hy.trans (hp.2.1.trans hw.2.1),
    hr.trans (hp.2.2.1.trans (hw.2.2.1.trans (moved_ball dt s).2.2.1))⟩

theorem range_three : List.range 3 = [0, 1, 2] := by decide

theorem range_five : List.range 5 = [0, 1, 2, 3, 4] := by decide

theorem brickStep_brickConfig (s : Breakout) (r c : Nat) :
    (brickStep s r c).brickConfig = s.brickConfig :=
  (brickStep_phase s r c).2.2.2.1

theorem foldl_brickStep_brickConfig (s : Breakout) (r : Nat) (l : List Nat) :
    (l.foldl (fun s c => brickStep s r c) s).brickConfig = s.brickConfig :=
  (foldl_phase _ (fun s c => brickStep_phase s r c) l s).2.2.2.1

set_option maxRecDepth 4000 in
theorem update_tightGame_dy : (BreakoutGame.update 0 tightGame).1.ball.dy = -150 := by
  simp only [BreakoutGame.update, brickCollisions, foldl_brickStep_brickConfig]
  have h : paddleCollision (wallCollisions (moveBall (0 / 1000) (movePaddle (0 / 1000) tightGame))).1
      = { tightGame with ball := { tightGame.ball with dx := 0, dy := 150 } } := by
    simp [tightGame, BreakoutGame.init, movePaddle, moveBall, wallCollisions,
      paddleCollision, hitsPaddle, hitPoint]
    norm_num
  rw [h]
  simp [tightGame, BreakoutGame.init, range_three, range_five, foldl_brickStep_brickConfig,
    brickStep_brickConfig]
  simp [brickStep, brickAt, hitsBrick, List.modify]
  norm_num

/-! ## Properties of Breakout -/

/-- C11: after `update(dt)` the ball is at `x + dx * dt / 1000` and
`y + dy * dt / 1000`, for the position and velocity it had before the call; the
wall, paddle and brick sections leave the position of the ball as it is. -/
theorem update_ball_position (s : Breakout) (dt : ℚ) :
    (BreakoutGame.update dt s).1.ball.x = s.ball.x + s.ball.dx * dt / 1000 ∧
    (BreakoutGame.update dt s).1.ball.y = s.ball.y + s.ball.dy * dt / 1000 ∧
    (∀ t : Breakout,
      (wallCollisions t).1.ball.x = t.ball.x ∧ (wallCollisions t).1.ball.y = t.ball.y ∧
      (paddleCollision t).ball.x = t.ball.x ∧ (paddleCollision t).ball.y = t.ball.y ∧
      (brickCollisions t).ball.x = t.ball.x ∧ (brickCollisions t).ball.y = t.ball.y) := by
  have h := update_ball_xy s dt
  have hm := moved_ball dt s
  refine ⟨?_, ?_, ?_⟩
  · rw [h.1, hm.1, mul_div_assoc]
  · rw [h.2.1, hm.2.1, mul_div_assoc]
  · intro t
    have hw := wallCollisions_rest t
    have hp := paddleCollision_rest t
    have hb := brickCollisions_phase t
    exact ⟨hw.1, hw.2.1, hp.1, hp.2.1, hb.2.2.2.2.2.2.1, hb.2.2.2.2.2.2.2.1⟩

/-- C12, as stated, fails: in `tightGame` the moved ball is on the paddle, as
the claim asks, and on a brick of status `1` too; the paddle section and the
brick section each reverse `dy`, and `update(0)` returns the `dy` it was given,
`-150`, not its negation. -/
theorem paddle_and_brick_hit_keeps_dy :
    ((moved 0 tightGame).paddle.x < (moved 0 tightGame).ball.x ∧
      (moved 0 tightGame).ball.x < (moved 0 tightGame).paddle.x + (moved 0 tightGame).paddle.width ∧
      (moved 0 tightGame).paddle.y < (moved 0 tightGame).ball.y + (moved 0 tightGame).ball.radius ∧
      (moved 0 tightGame).ball.y - (moved 0 tightGame).ball.radius <
        (moved 0 tightGame).paddle.y + (moved 0 tightGame).paddle.height) ∧
    tightGame.ball.dy = -150 ∧
    (BreakoutGame.update 0 tightGame).1.ball.dy = -150 ∧
    (BreakoutGame.update 0 tightGame).1.ball.dy ≠ -tightGame.ball.dy := by
  refine ⟨?_, rfl, update_tightGame_dy, ?_⟩
  · simp [moved, moveBall, movePaddle, tightGame, BreakoutGame.init]
    norm_num
  · rw [update_tightGame_dy]
    simp [tightGame]
    norm_num

/-- C12 (amended): when, after the position update of `update(dt)`, the centre
of the ball lies strictly between `paddle.x` and `paddle.x + paddle.width`, its
vertical span strictly overlaps that of the paddle, the ball is not above the top
wall and it is on no brick of status `1`, then `dy` after `update(dt)` is the
negation of `dy` before it. -/
theorem update_paddle_hit_reverses_dy (s : Breakout) (dt : ℚ)
    (hleft : (moved dt s).paddle.x < (moved dt s).ball.x)
    (hright : (moved dt s).ball.x < (moved dt s).paddle.x + (moved dt s).paddle.width)
    (hbelow : (moved dt s).paddle.y < (moved dt s).ball.y + (moved dt s).ball.radius)
    (habove : (moved dt s).ball.y - (moved dt s).ball.radius <
      (moved dt s).paddle.y + (moved dt s).paddle.height)
    (htop : 0 ≤ (moved dt s).ball.y - (moved dt s).ball.radius)
    (hbricks : ∀ r c brick, brickAt s.bricks r c = some brick → brick.status = 1 →
      hitsBrick (moved dt s).ball s.brickConfig brick = false) :
    (BreakoutGame.update dt s).1.ball.dy = -s.ball.dy := by
  have hw := wallCollisions_rest (moved dt s)
  have hp := paddleCollision_rest (wallCollisions (moved dt s)).1
  have hm := moved_rest dt s
  have hhit : hitsPaddle (wallCollisions (moved dt s)).1 = true := by
    rw [hitsPaddle_congr (moved dt s) _ hw.1 hw.2.1 hw.2.2.1 hw.2.2.2.2.1]
    simp [hitsPaddle, hleft, hright, hbelow, habove]
  have hdy : (paddleCollision (wallCollisions (moved dt s)).1).ball.dy = -s.ball.dy := by
    unfold paddleCollision
    rw [if_pos hhit]
    show -(wallCollisions (moved dt s)).1.ball.dy = -s.ball.dy
    rw [wallCollisions_dy, if_neg (not_lt.2 htop), (moved_ball dt s).2.2.2.2.2]
  have hnohit : brickCollisions (paddleCollision (wallCollisions (moved dt s)).1) =
      paddleCollision (wallCollisions (moved dt s)).1 := by
    apply brickCollisions_of_no_hit
    intro r c brick hb hstatus
    rw [hp.2.2.2.2.2.1, hw.2.2.2.2.2.1, hm.1] at hb
    rw [hp.2.2.2.2.2.2.1, hw.2.2.2.2.2.2.1, hm.2.1,
      hitsBrick_congr (moved dt s).ball _ s.brickConfig brick brick (hp.1.trans hw.1)
        (hp.2.1.trans hw.2.1) (hp.2.2.1.trans hw.2.2.1) rfl rfl]
    exact hbricks r c brick hb hstatus
  rw [update_eq]
  show (brickCollisions (paddleCollision (wallCollisions (moved dt s)).1)).ball.dy = -s.ball.dy
  rw [hnohit, hdy]

theorem brickAt_mem {bricks : List (List Brick)} {r c : Nat} {brick : Brick}
    (h : brickAt bricks r c = some brick) : ∃ row ∈ bricks, brick ∈ row := by
  unfold brickAt at h
  cases hrow : bricks.get? r with
  | none => rw [hrow] at h; simp at h
  | some row =>
    rw [hrow] at h
    simp only [Option.some_bind] at h
    exact ⟨row, List.get?_mem hrow, List.get?_mem h⟩

/-- The amended C12 on `paddleGame`: the ball is on the paddle, below the top
wall and far from the bricks; `update(0)` turns `dy = 150` into `-150`. -/
theorem update_paddle_hit_reverses_dy_witness :
    (BreakoutGame.update 0 paddleGame).1.ball.dy = -paddleGame.ball.dy := by
  refine update_paddle_hit_reverses_dy paddleGame 0 ?_ ?_ ?_ ?_ ?_ ?_
  · simp [moved, moveBall, movePaddle, paddleGame, freshGame, BreakoutGame.init]
    norm_num
  · simp [moved, moveBall, movePaddle, paddleGame, freshGame, BreakoutGame.init]
    norm_num
  · simp [moved, moveBall, movePaddle, paddleGame, freshGame, BreakoutGame.init]
    norm_num
  · simp [moved, moveBall, movePaddle, paddleGame, freshGame, BreakoutGame.init]
    norm_num
  · simp [moved, moveBall, movePaddle, paddleGame, freshGame, BreakoutGame.init]
    norm_num
  · intro r c brick hb _
    obtain ⟨row, hrow, hmem⟩ := brickAt_mem hb
    simp only [paddleGame, freshGame, BreakoutGame.init, range_three, range_five, List.map_cons,
      List.map_nil, List.mem_cons, List.mem_singleton, List.not_mem_nil, or_false] at hrow
    rcases hrow with rfl | rfl | rfl <;>
      simp only [List.mem_cons, List.mem_singleton, List.not_mem_nil, or_false] at hmem <;>
      rcases hmem with rfl | rfl | rfl | rfl | rfl <;>
      simp [hitsBrick, moved, moveBall, movePaddle, paddleGame, freshGame, BreakoutGame.init] <;>
      norm_num

theorem update_calls (s : Breakout) (dt : ℚ) :
    (BreakoutGame.update dt s).2 =
      if (moved dt s).ball.y + (moved dt s).ball.radius > (moved dt s).canvasHeight then
        [EngineCall.stop] else [] := by
  rw [update_eq]
  exact wallCollisions_calls (moved dt s)

/-- C13: when, after the position update of `update(dt)`, the bottom edge of
the ball is below the canvas, the engine is not running when `update(dt)`
returns, and the frame callback that made the call returns with the engine
stopped and without a new request; when the bottom edge is not below the canvas,
`update(dt)` leaves the running flag as it was. -/
theorem update_stops_engine_when_ball_escapes (e : GameEngine ℚ Breakout) :
    (∀ dt : ℚ,
      (moved dt e.game).ball.y + (moved dt e.game).ball.radius > (moved dt e.game).canvasHeight →
      (e.update breakoutHooks dt).running = false) ∧
    (∀ dt : ℚ,
      ¬ (moved dt e.game).ball.y + (moved dt e.game).ball.radius >
        (moved dt e.game).canvasHeight →
      (e.update breakoutHooks dt).running = e.running) ∧
    (∀ timestamp : ℚ,
      (moved (timestamp - e.lastUpdateTime) e.game).ball.y +
          (moved (timestamp - e.lastUpdateTime) e.game).ball.radius >
        (moved (timestamp - e.lastUpdateTime) e.game).canvasHeight →
      (e.gameLoop breakoutHooks timestamp).running = false ∧
      (e.gameLoop breakoutHooks timestamp).scheduled = e.scheduled ∧
      (e.gameLoop breakoutHooks timestamp).pending = e.pending) := by
  refine ⟨?_, ?_, ?_⟩
  · intro dt h
    unfold GameEngine.update
    rw [calls_eq]
    show runningAfter e.running (BreakoutGame.update dt e.game).2 = false
    rw [update_calls, if_pos h]
    rfl
  · intro dt h
    unfold GameEngine.update
    rw [calls_eq]
    show runningAfter e.running (BreakoutGame.update dt e.game).2 = e.running
    rw [update_calls, if_neg h]
    rfl
  · intro timestamp h
    have hcalls : hookCalls breakoutHooks e timestamp = [EngineCall.stop] := by
      show (BreakoutGame.update (timestamp - e.lastUpdateTime) e.game).2 ++ [] = _
      rw [update_calls, if_pos h]
      rfl
    rw [gameLoop_eq, hcalls]
    exact ⟨rfl, rfl, rfl⟩

/-- C13 on `lostEngine`, whose ball is below the canvas: the frame at time `16`
leaves the engine stopped, with the one request it had made. -/
theorem update_stops_engine_when_ball_escapes_witness :
    lostEngine.running = true ∧
    (lostEngine.gameLoop breakoutHooks 16).running = false ∧
    (lostEngine.gameLoop breakoutHooks 16).scheduled = 1 := by
  have h := (update_stops_engine_when_ball_escapes lostEngine).2.2 16 (by
    simp [moved, moveBall, movePaddle, lostEngine, lostGame, freshGame, BreakoutGame.init]
    norm_num)
  exact ⟨rfl, h.1, h.2.1⟩

theorem update_dx_of_hit (s : Breakout) (dt : ℚ) (hhit : hitsPaddle (moved dt s) = true) :
    (BreakoutGame.update dt s).1.ball.dx = hitPoint (moved dt s) * s.ball.speed := by
  have hw := wallCollisions_rest (moved dt s)
  have hhit' : hitsPaddle (wallCollisions (moved dt s)).1 = true := by
    rw [hitsPaddle_congr (moved dt s) _ hw.1 hw.2.1 hw.2.2.1 hw.2.2.2.2.1]
    exact hhit
  have hb := brickCollisions_phase (paddleCollision (wallCollisions (moved dt s)).1)
  rw [update_eq]
  show (brickCollisions (paddleCollision (wallCollisions (moved dt s)).1)).ball.dx = _
  rw [hb.2.2.2.2.2.2.2.2.2.2.1]
  unfold paddleCollision
  rw [if_pos hhit']
  show hitPoint _ * (wallCollisions (moved dt s)).1.ball.speed = _
  rw [hw.2.2.2.1, (moved_ball dt s).2.2.2.1]
  congr 1
  exact hitPoint_congr (moved dt s) _ hw.1 hw.2.2.2.2.1

/-- C15: when the ball-paddle collision branch of `update(dt)` is taken, the
paddle has a positive width and the normalized hit point lies strictly between
`-1` and `1`; the branch assigns the hit point times `ball.speed` to `dx`, which
is the `dx` of the ball after `update(dt)`, so for a positive `ball.speed` its
absolute value is less than `ball.speed`. -/
theorem paddle_hit_point_normalized (s : Breakout) (dt : ℚ)
    (hhit : hitsPaddle (moved dt s) = true) (hspeed : 0 < s.ball.speed) :
    0 < (moved dt s).paddle.width ∧
    -1 < hitPoint (moved dt s) ∧ hitPoint (moved dt s) < 1 ∧
    (BreakoutGame.update dt s).1.ball.dx = hitPoint (moved dt s) * s.ball.speed ∧
    |(BreakoutGame.update dt s).1.ball.dx| < s.ball.speed := by
  have hcond := hhit
  simp only [hitsPaddle, Bool.and_eq_true, decide_eq_true_eq] at hcond
  obtain ⟨⟨⟨hleft, hright⟩, _⟩, _⟩ := hcond
  have hwidth : 0 < (moved dt s).paddle.width := by linarith
  have hhalf : 0 < (moved dt s).paddle.width / 2 := by linarith
  have hlow : -1 < hitPoint (moved dt s) := by
    unfold hitPoint
    rw [lt_div_iff₀ hhalf]
    linarith
  have hhigh : hitPoint (moved dt s) < 1 := by
    unfold hitPoint
    rw [div_lt_iff₀ hhalf]
    linarith
  have hdx := update_dx_of_hit s dt hhit
  refine ⟨hwidth, hlow, hhigh, hdx, ?_⟩
  rw [hdx, abs_lt]
  constructor
  · nlinarith
  · nlinarith

/-- C15 on `paddleGame`: the ball hits the paddle at `x = 250`, a third of the
way from the middle of the paddle to its right end. -/
theorem paddle_hit_point_normalized_witness :
    -1 < hitPoint (moved 0 paddleGame) ∧ hitPoint (moved 0 paddleGame) < 1 ∧
    |(BreakoutGame.update 0 paddleGame).1.ball.dx| < paddleGame.ball.speed :=
  have h := paddle_hit_point_normalized paddleGame 0
    (by
      simp [hitsPaddle, moved, moveBall, movePaddle, paddleGame, freshGame, BreakoutGame.init]
      norm_num)
    (by simp [paddleGame])
  ⟨h.2.1, h.2.2.1, h.2.2.2.2⟩

theorem update_paddle (s : Breakout) (dt : ℚ) :
    (BreakoutGame.update dt s).1.paddle = (movePaddle (dt / 1000) s).paddle ∧
    (BreakoutGame.update dt s).1.canvasWidth = s.canvasWidth := by
  have hw := wallCollisions_rest (moved dt s)
  have hp := paddleCollision_rest (wallCollisions (moved dt s)).1
  have hb := brickCollisions_phase (paddleCollision (wallCollisions (moved dt s)).1)
  have hm := moved_rest dt s
  rw [update_eq]
  exact ⟨hb.2.2.1.trans (hp.2.2.2.2.1.trans (hw.2.2.2.2.1.trans hm.2.2.2.2)),
    hb.1.trans (hp.2.2.2.2.2.2.2.1.trans (hw.2.2.2.2.2.2.2.1.trans hm.2.2.1))⟩

theorem movePaddle_bounds (s : Breakout) (delta : ℚ) (hx0 : 0 ≤ s.paddle.x)
    (hx1 : s.paddle.x ≤ s.canvasWidth - s.paddle.width) (hstep : 0 ≤ s.paddle.speed * delta) :
    0 ≤ (movePaddle delta s).paddle.x ∧
    (movePaddle delta s).paddle.x ≤ s.canvasWidth - s.paddle.width ∧
    (s.rightPressed = false → s.leftPressed = false →
      (movePaddle delta s).paddle.x = s.paddle.x) := by
  obtain ⟨cw, ch, ⟨w, ht, x, y, sp⟩, ball, config, bricks, rp, lp⟩ := s
  simp only at hx0 hx1 hstep
  have hcw : 0 ≤ cw - w := le_trans hx0 hx1
  cases rp <;> cases lp <;> by_cases h1 : cw < x + sp * delta + w <;>
    simp [movePaddle, h1] <;> (try split_ifs) <;> (try simp) <;>
    (try constructor) <;> linarith

/-- C16 (amended): in exact rational arithmetic, when the paddle lies on the
canvas (`0 <= paddle.x` and
`paddle.x <= canvasWidth - paddle.width`), `paddle.speed` and `dt` are not
negative, then after `update(dt)` the paddle lies on the canvas, whatever the
flags `leftPressed` and `rightPressed`; with neither flag set `paddle.x` is
unchanged. The width of the paddle and of the canvas do not change. -/
theorem update_keeps_paddle_on_canvas (s : Breakout) (dt : ℚ) (hx0 : 0 ≤ s.paddle.x)
    (hx1 : s.paddle.x ≤ s.canvasWidth - s.paddle.width) (hspeed : 0 ≤ s.paddle.speed)
    (hdt : 0 ≤ dt) :
    0 ≤ (BreakoutGame.update dt s).1.paddle.x ∧
    (BreakoutGame.update dt s).1.paddle.x ≤
      (BreakoutGame.update dt s).1.canvasWidth - (BreakoutGame.update dt s).1.paddle.width ∧
    (BreakoutGame.update dt s).1.canvasWidth = s.canvasWidth ∧
    (BreakoutGame.update dt s).1.paddle.width = s.paddle.width ∧
    (s.rightPressed = false → s.leftPressed = false →
      (BreakoutGame.update dt s).1.paddle.x = s.paddle.x) := by
  have hstep : 0 ≤ s.paddle.speed * (dt / 1000) :=
    mul_nonneg hspeed (div_nonneg hdt (by norm_num))
  have hb := movePaddle_bounds s (dt / 1000) hx0 hx1 hstep
  have hu := update_paddle s dt
  have hwidth : (BreakoutGame.update dt s).1.paddle.width = s.paddle.width := by
    rw [hu.1]; exact (movePaddle_rest (dt / 1000) s).2.2.2.2.2.1
  rw [hwidth, hu.2, hu.1]
  exact ⟨hb.1, hb.2.1, rfl, rfl, hb.2.2⟩

/-- The amended C16 on `freshGame` with the right key pressed for a whole second: the paddle
stops at the right edge of the canvas. -/
theorem update_keeps_paddle_on_canvas_witness :
    0 ≤ (BreakoutGame.update 1000 { freshGame with rightPressed := true }).1.paddle.x ∧
    (BreakoutGame.update 1000 { freshGame with rightPressed := true }).1.paddle.x ≤
      (BreakoutGame.update 1000 { freshGame with rightPressed := true }).1.canvasWidth -
        (BreakoutGame.update 1000 { freshGame with rightPressed := true }).1.paddle.width :=
  have h := update_keeps_paddle_on_canvas { freshGame with rightPressed := true } 1000
    (by simp [freshGame, BreakoutGame.init]; norm_num)
    (by simp [freshGame, BreakoutGame.init]; norm_num)
    (by simp [freshGame, BreakoutGame.init])
    (by norm_num)
  ⟨h.1, h.2.1⟩

theorem map_length_of_forall₂ {R : Brick → Brick → Prop} {bricks bricks' : List (List Brick)}
    (h : List.Forall₂ (List.Forall₂ R) bricks bricks') :
    bricks'.map List.length = bricks.map List.length := by
  induction h with
  | nil => rfl
  | cons hrow _ ih => simp [forall₂_length hrow, ih]

/-- C20: `update(dt)` keeps the array of bricks in shape and every brick in
place; a brick of status `0` stays at `0`, and a brick changes its status only
from `1` to `0`, and only when the centre of the moved ball is strictly inside
the horizontal extent of the brick and the vertical span of the ball strictly
overlaps the vertical extent of the brick. So the number of bricks of status `1`
does not increase. -/
theorem update_bricks_only_removed (s : Breakout) (dt : ℚ) :
    (BreakoutGame.update dt s).1.bricks.map List.length = s.bricks.map List.length ∧
    (∀ r c brick, brickAt s.bricks r c = some brick →
      ∃ brick', brickAt (BreakoutGame.update dt s).1.bricks r c = some brick' ∧
        brick'.x = brick.x ∧ brick'.y = brick.y ∧
        (brick.status = 0 → brick'.status = 0) ∧
        (brick'.status ≠ brick.status →
          brick.status = 1 ∧ brick'.status = 0 ∧
          brick.x < (moved dt s).ball.x ∧
          (moved dt s).ball.x < brick.x + s.brickConfig.width ∧
          (moved dt s).ball.y - (moved dt s).ball.radius < brick.y + s.brickConfig.height ∧
          brick.y < (moved dt s).ball.y + (moved dt s).ball.radius)) ∧
    liveBricks (BreakoutGame.update dt s).1.bricks ≤ liveBricks s.bricks ∧
    (BreakoutGame.update dt s).1.brickConfig = s.brickConfig := by
  have hrel := update_bricks_rel s dt
  refine ⟨map_length_of_forall₂ hrel, ?_, liveBricks_le_of_forall₂ hrel, ?_⟩
  · intro r c brick hb
    unfold brickAt at hb ⊢
    cases hrow : s.bricks.get? r with
    | none => rw [hrow] at hb; simp at hb
    | some row =>
      rw [hrow] at hb
      simp only [Option.some_bind] at hb
      obtain ⟨row', hrow', hrows⟩ := forall₂_get? hrel r row hrow
      obtain ⟨brick', hbrick', hx, hy, hstatus⟩ := forall₂_get? hrows c brick hb
      refine ⟨brick', by rw [hrow']; simpa using hbrick', hx, hy, ?_, ?_⟩
      · intro h0
        rcases hstatus with e | ⟨e, _, _⟩
        · rw [e, h0]
        · rw [h0] at e; exact absurd e (by decide)
      · intro hne
        rcases hstatus with e | ⟨e, z, hhit⟩
        · exact absurd e hne
        · simp only [hitsBrick, Bool.and_eq_true, decide_eq_true_eq] at hhit
          obtain ⟨⟨⟨h1, h2⟩, h3⟩, h4⟩ := hhit
          exact ⟨e, z, h1, h2, h3, h4⟩
  · have hw := wallCollisions_rest (moved dt s)
    have hp := paddleCollision_rest (wallCollisions (moved dt s)).1
    have hb := brickCollisions_phase (paddleCollision (wallCollisions (moved dt s)).1)
    rw [update_eq]
    exact hb.2.2.2.1.trans (hp.2.2.2.2.2.2.1.trans (hw.2.2.2.2.2.2.1.trans (moved_rest dt s).2.1))

/-! ## The paddle section in the arithmetic of the source -/

set_option maxRecDepth 100000 in
/-- C16, as stated, fails in the arithmetic of the source. On a canvas 520
wide, a paddle 75 wide at `x = 440.20000000000005` with speed 300 lies on the
canvas, and `dt = 16` with the right key pressed moves it by `4.8` to
`445 + 2 ^ -44`; the sum of that and 75 rounds to 520, so the test
`paddle.x + paddle.width > canvasWidth` is false, the paddle is not put back,
and `paddle.x` ends above `canvasWidth - paddle.width = 445`. -/
theorem paddle_leaves_canvas_in_doubles :
    Double.le (Double.ofInt 0) driftX = true ∧
    Double.le driftX (Double.sub (Double.ofInt 520) (Double.ofInt 75)) = true ∧
    Double.le (Double.ofInt 0) (Double.ofInt 300) = true ∧
    Double.le (Double.ofInt 0) (Double.ofInt 16) = true ∧
    Double.sub (Double.ofInt 520) (Double.ofInt 75) = Double.ofInt 445 ∧
    Double.add
        (Double.add driftX
          (Double.mul (Double.ofInt 300) (Double.div (Double.ofInt 16) (Double.ofInt 1000))))
        (Double.ofInt 75) = Double.ofInt 520 ∧
    movePaddleDouble (Double.ofInt 520) (Double.ofInt 75) (Double.ofInt 300) driftX true false
        (Double.ofInt 16) = { mantissa := 445 * 2 ^ 44 + 1, exponent := -44 } ∧
    Double.le
        (movePaddleDouble (Double.ofInt 520) (Double.ofInt 75) (Double.ofInt 300) driftX true
          false (Double.ofInt 16))
        (Double.sub (Double.ofInt 520) (Double.ofInt 75)) = false := by
  decide

/-! ## Lemmas on the click handler of Tic-Tac-Toe -/

theorem onCellClick_of_gameOver (s : TicTacToe) (row col : Nat) (h : s.gameOver = true) :
    onCellClick s row col = s := by
  simp [onCellClick, h]

theorem onCellClick_of_not_empty (s : TicTacToe) (row col : Nat)
    (h : cellAt s.board row col ≠ some "") : onCellClick s row col = s := by
  have hne : (cellAt s.board row col != some "") = true := by simpa using h
  unfold onCellClick
  rw [hne]
  simp

theorem clickAll_of_gameOver (clicks : List (Nat × Nat)) (s : TicTacToe)
    (h : s.gameOver = true) : clickAll s clicks = s := by
  induction clicks with
  | nil => rfl
  | cons c cs ih =>
    have hstep : clickAll s (c :: cs) = clickAll (onCellClick s c.1 c.2) cs := rfl
    rw [hstep, onCellClick_of_gameOver s c.1 c.2 h, ih]

/-- The result of a click that makes a move: the clicked cell was empty, and
the new state is one of the three the handler builds. -/
theorem onCellClick_cases (s : TicTacToe) (row col : Nat) :
    onCellClick s row col = s ∨
    (s.gameOver = false ∧ cellAt s.board row col = some "" ∧
      (onCellClick s row col).board = setCell s.board row col s.currentPlayer ∧
      ((checkWinner (setCell s.board row col s.currentPlayer) s.currentPlayer = true ∧
          (onCellClick s row col).currentPlayer = s.currentPlayer ∧
          (onCellClick s row col).gameOver = true) ∨
        (checkWinner (setCell s.board row col s.currentPlayer) s.currentPlayer = false ∧
          isBoardFull (setCell s.board row col s.currentPlayer) = true ∧
          (onCellClick s row col).currentPlayer = s.currentPlayer ∧
          (onCellClick s row col).gameOver = true) ∨
        (checkWinner (setCell s.board row col s.currentPlayer) s.currentPlayer = false ∧
          isBoardFull (setCell s.board row col s.currentPlayer) = false ∧
          (onCellClick s row col).currentPlayer =
            (if s.currentPlayer = "X" then "O" else "X") ∧
          (onCellClick s row col).gameOver = false))) := by
  by_cases hgo : s.gameOver = true
  · exact Or.inl (onCellClick_of_gameOver s row col hgo)
  · by_cases hcell : cellAt s.board row col = some ""
    · right
      have hgo' : s.gameOver = false := by simpa using hgo
      refine ⟨hgo', hcell, ?_⟩
      unfold onCellClick
      simp only [hgo', hcell, Bool.false_eq_true, if_false, bne_self_eq_false]
      by_cases hw : checkWinner (setCell s.board row col s.currentPlayer) s.currentPlayer = true
      · simp [hw]
      · have hw' : checkWinner (setCell s.board row col s.currentPlayer) s.currentPlayer = false := by
          simpa using hw
        by_cases hf : isBoardFull (setCell s.board row col s.currentPlayer) = true
        · simp [hw', hf]
        · have hf' : isBoardFull (setCell s.board row col s.currentPlayer) = false := by
            simpa using hf
          simp [hw', hf']
    · exact Or.inl (onCellClick_of_not_empty s row col hcell)

theorem count_set (row : List String) (col : Nat) (old v m : String)
    (h : row.get? col = some old) :
    (row.set col v).count m + (if old = m then 1 else 0) =
      row.count m + (if v = m then 1 else 0) := by
  induction row generalizing col with
  | nil => simp at h
  | cons x xs ih =>
    cases col with
    | zero =>
      simp only [List.get?_cons_zero, Option.some.injEq] at h
      subst h
      simp only [List.set_cons_zero, List.count_cons, beq_iff_eq]
      omega
    | succ n =>
      have := ih n (by simpa using h)
      simp only [List.set_cons_succ, List.count_cons]
      omega

theorem countMark_setCell (board : Board) (row col : Nat) (old v m : String)
    (h : cellAt board row col = some old) :
    countMark (setCell board row col v) m + (if old = m then 1 else 0) =
      countMark board m + (if v = m then 1 else 0) := by
  induction board generalizing row with
  | nil => simp [cellAt] at h
  | cons r rs ih =>
    cases row with
    | zero =>
      have hr : r.get? col = some old := by simpa [cellAt] using h
      have := count_set r col old v m hr
      simp only [setCell, countMark, List.modify_zero_cons, List.map_cons, List.sum_cons]
      omega
    | succ n =>
      have hn : cellAt rs n col = some old := by simpa [cellAt] using h
      have := ih n hn
      simp only [setCell, countMark, List.modify_succ_cons, List.map_cons, List.sum_cons] at this ⊢
      omega

theorem mem_setCell (board : Board) (row col : Nat) (v : String) (r' : List String)
    (cell : String) (hr : r' ∈ setCell board row col v) (hc : cell ∈ r') :
    (∃ r ∈ board, cell ∈ r) ∨ cell = v := by
  induction board generalizing row with
  | nil => cases row <;> simp [setCell] at hr
  | cons r rs ih =>
    cases row with
    | zero =>
      simp only [setCell, List.modify_zero_cons, List.mem_cons] at hr
      rcases hr with e | e
      · subst e
        rcases List.mem_or_eq_of_mem_set hc with h | h
        · exact Or.inl ⟨r, by simp, h⟩
        · exact Or.inr h
      · exact Or.inl ⟨r', by simp [e], hc⟩
    | succ n =>
      simp only [setCell, List.modify_succ_cons, List.mem_cons] at hr
      rcases hr with e | e
      · subst e
        exact Or.inl ⟨r', by simp, hc⟩
      · rcases ih n e with ⟨r₀, hr₀, h⟩ | h
        · exact Or.inl ⟨r₀, by simp [hr₀], h⟩
        · exact Or.inr h

theorem marksBalanced_initial : MarksBalanced TicTacToe.initial := by
  refine ⟨?_, Or.inl ⟨rfl, rfl, by decide⟩⟩
  intro row hrow cell hcell
  left
  simp only [TicTacToe.initial, size, List.replicate, List.mem_cons, List.mem_singleton,
    List.not_mem_nil, or_false, or_self] at hrow
  subst hrow
  simpa using hcell

theorem marksBalanced_onCellClick (s : TicTacToe) (row col : Nat) (h : MarksBalanced s) :
    MarksBalanced (onCellClick s row col) := by
  rcases onCellClick_cases s row col with e | ⟨hgo, hcell, hboard, hbranch⟩
  · rw [e]; exact h
  · obtain ⟨hcells, hcount⟩ := h
    have hx := countMark_setCell s.board row col "" s.currentPlayer "X" hcell
    have ho := countMark_setCell s.board row col "" s.currentPlayer "O" hcell
    have hplayer : (s.currentPlayer = "X" ∧
          countMark s.board "X" = countMark s.board "O") ∨
        (s.currentPlayer = "O" ∧ countMark s.board "X" = countMark s.board "O" + 1) := by
      rcases hcount with ⟨_, hp, hc⟩ | ⟨_, hp, hc⟩ | ⟨hover, _⟩
      · exact Or.inl ⟨hp, hc⟩
      · exact Or.inr ⟨hp, hc⟩
      · rw [hgo] at hover; exact absurd hover (by decide)
    have hmark : s.currentPlayer = "X" ∨ s.currentPlayer = "O" := hplayer.imp And.left And.left
    refine ⟨?_, ?_⟩
    · intro r' hr' cell hc
      rw [hboard] at hr'
      rcases mem_setCell s.board row col s.currentPlayer r' cell hr' hc with ⟨r, hr, hcr⟩ | e
      · exact hcells r hr cell hcr
      · rw [e]; exact Or.inr hmark
    · rw [hboard]
      rcases hplayer with ⟨hp, hc⟩ | ⟨hp, hc⟩
      · rw [hp] at hx ho hbranch ⊢
        simp only [reduceCtorEq, if_true, if_false] at hx ho
        have hx' : countMark (setCell s.board row col "X") "X" = countMark s.board "X" + 1 := by
          simpa using hx
        have ho' : countMark (setCell s.board row col "X") "O" = countMark s.board "O" := by
          simpa using ho
        rcases hbranch with ⟨_, _, hover⟩ | ⟨_, _, _, hover⟩ | ⟨_, _, hnext, hover⟩
        · exact Or.inr (Or.inr ⟨hover, Or.inr (by omega)⟩)
        · exact Or.inr (Or.inr ⟨hover, Or.inr (by omega)⟩)
        · exact Or.inr (Or.inl ⟨hover, by simpa using hnext, by omega⟩)
      · rw [hp] at hx ho hbranch ⊢
        have hx' : countMark (setCell s.board row col "O") "X" = countMark s.board "X" := by
          simpa using hx
        have ho' : countMark (setCell s.board row col "O") "O" = countMark s.board "O" + 1 := by
          simpa using ho
        rcases hbranch with ⟨_, _, hover⟩ | ⟨_, _, _, hover⟩ | ⟨_, _, hnext, hover⟩
        · exact Or.inr (Or.inr ⟨hover, Or.inl (by omega)⟩)
        · exact Or.inr (Or.inr ⟨hover, Or.inl (by omega)⟩)
        · exact Or.inl ⟨hover, by simpa using hnext, by omega⟩

theorem marksBalanced_clickAll (clicks : List (Nat × Nat)) (s : TicTacToe)
    (h : MarksBalanced s) : MarksBalanced (clickAll s clicks) := by
  induction clicks generalizing s with
  | nil => exact h
  | cons c cs ih => exact ih _ (marksBalanced_onCellClick s c.1 c.2 h)

/-! ## Properties of the click handler of Tic-Tac-Toe -/

/-- C14: when `gameOver` is true, or the clicked cell is not empty,
`onCellClick` leaves the board, `currentPlayer` and `gameOver` as they are; so
once `gameOver` is set no sequence of clicks changes the state. -/
theorem onCellClick_ignored (s : TicTacToe) :
    (∀ row col : Nat, s.gameOver = true ∨ cellAt s.board row col ≠ some "" →
      onCellClick s row col = s) ∧
    (s.gameOver = true → ∀ clicks : List (Nat × Nat), clickAll s clicks = s) := by
  refine ⟨?_, fun h clicks => clickAll_of_gameOver clicks s h⟩
  intro row col h
  rcases h with h | h
  · exact onCellClick_of_gameOver s row col h
  · exact onCellClick_of_not_empty s row col h

/-- C14 on a board won by `X`, and on a taken cell of a game that is on. -/
theorem onCellClick_ignored_witness :
    onCellClick
        { board := [["X", "X", "X"], ["O", "O", ""], ["", "", ""]], currentPlayer := "X",
          gameOver := true } 1 2 =
      { board := [["X", "X", "X"], ["O", "O", ""], ["", "", ""]], currentPlayer := "X",
        gameOver := true } ∧
    onCellClick
        { board := [["X", "", ""], ["", "", ""], ["", "", ""]], currentPlayer := "O",
          gameOver := false } 0 0 =
      { board := [["X", "", ""], ["", "", ""], ["", "", ""]], currentPlayer := "O",
        gameOver := false } :=
  ⟨(onCellClick_ignored _).1 1 2 (Or.inl rfl), (onCellClick_ignored _).1 0 0 (Or.inr (by decide))⟩

/-- C18: in every state reached from the initial state by a sequence of clicks
(on cells of the board or not), every cell is empty, `X` or `O`, the board has
as many `X` as `O` or one more, and while `gameOver` is false `currentPlayer` is
`X` exactly when the two counts are equal. -/
theorem clickAll_marks_balanced (clicks : List (Nat × Nat)) :
    (∀ row ∈ (clickAll TicTacToe.initial clicks).board, ∀ cell ∈ row,
      cell = "" ∨ cell = "X" ∨ cell = "O") ∧
    (countMark (clickAll TicTacToe.initial clicks).board "X" =
        countMark (clickAll TicTacToe.initial clicks).board "O" ∨
      countMark (clickAll TicTacToe.initial clicks).board "X" =
        countMark (clickAll TicTacToe.initial clicks).board "O" + 1) ∧
    ((clickAll TicTacToe.initial clicks).gameOver = false →
      ((clickAll TicTacToe.initial clicks).currentPlayer = "X" ↔
        countMark (clickAll TicTacToe.initial clicks).board "X" =
          countMark (clickAll TicTacToe.initial clicks).board "O")) := by
  obtain ⟨hcells, hcount⟩ := marksBalanced_clickAll clicks _ marksBalanced_initial
  refine ⟨hcells, ?_, ?_⟩
  · rcases hcount with ⟨_, _, hc⟩ | ⟨_, _, hc⟩ | ⟨_, hc⟩
    · exact Or.inl hc
    · exact Or.inr hc
    · exact hc
  · intro hgo
    rcases hcount with ⟨_, hp, hc⟩ | ⟨_, hp, hc⟩ | ⟨hover, _⟩
    · exact ⟨fun _ => hc, fun _ => hp⟩
    · constructor
      · intro hx
        rw [hp] at hx
        exact absurd hx (by decide)
      · intro he
        omega
    · rw [hgo] at hover
      exact absurd hover (by decide)

theorem checkWinner_lines (a b c d e f g h i p : String) :
    checkWinner [[a, b, c], [d, e, f], [g, h, i]] p = true ↔
      (a = p ∧ b = p ∧ c = p) ∨ (d = p ∧ e = p ∧ f = p) ∨ (g = p ∧ h = p ∧ i = p) ∨
      (a = p ∧ d = p ∧ g = p) ∨ (b = p ∧ e = p ∧ h = p) ∨ (c = p ∧ f = p ∧ i = p) ∨
      (a = p ∧ e = p ∧ i = p) ∨ (c = p ∧ e = p ∧ g = p) := by
  simp only [checkWinner, range_size, cellAt]
  simp [size, or_assoc]

theorem setCell_cells (a b c d e f g h i : String) (row col : Nat) (old v : String)
    (hcell : cellAt [[a, b, c], [d, e, f], [g, h, i]] row col = some old) :
    ∃ a' b' c' d' e' f' g' h' i' : String,
      setCell [[a, b, c], [d, e, f], [g, h, i]] row col v =
        [[a', b', c'], [d', e', f'], [g', h', i']] ∧
      (a' = a ∨ a' = v) ∧ (b' = b ∨ b' = v) ∧ (c' = c ∨ c' = v) ∧
      (d' = d ∨ d' = v) ∧ (e' = e ∨ e' = v) ∧ (f' = f ∨ f' = v) ∧
      (g' = g ∨ g' = v) ∧ (h' = h ∨ h' = v) ∧ (i' = i ∨ i' = v) := by
  rcases row with _ | _ | _ | row <;> rcases col with _ | _ | _ | col <;>
    first
      | (simp [cellAt] at hcell; done)
      | (refine ⟨_, _, _, _, _, _, _, _, _, rfl, ?_, ?_, ?_, ?_, ?_, ?_, ?_, ?_, ?_⟩ <;>
          first
            | exact Or.inl rfl
            | exact Or.inr rfl)

theorem checkWinner_of_cells {a b c d e f g h i a' b' c' d' e' f' g' h' i' v q : String}
    (hv : v ≠ q)
    (ha : a' = a ∨ a' = v) (hb : b' = b ∨ b' = v) (hc : c' = c ∨ c' = v)
    (hd : d' = d ∨ d' = v) (he : e' = e ∨ e' = v) (hf : f' = f ∨ f' = v)
    (hg : g' = g ∨ g' = v) (hh : h' = h ∨ h' = v) (hi : i' = i ∨ i' = v)
    (hwin : checkWinner [[a', b', c'], [d', e', f'], [g', h', i']] q = true) :
    checkWinner [[a, b, c], [d, e, f], [g, h, i]] q = true := by
  have key : ∀ x x' : String, (x' = x ∨ x' = v) → x' = q → x = q := by
    intro x x' hx hq
    rcases hx with e | e
    · rw [← e]; exact hq
    · rw [e] at hq; exact absurd hq hv
  rw [checkWinner_lines] at hwin ⊢
  rcases hwin with ⟨h1, h2, h3⟩ | ⟨h1, h2, h3⟩ | ⟨h1, h2, h3⟩ | ⟨h1, h2, h3⟩ | ⟨h1, h2, h3⟩ |
    ⟨h1, h2, h3⟩ | ⟨h1, h2, h3⟩ | ⟨h1, h2, h3⟩
  · exact Or.inl ⟨key _ _ ha h1, key _ _ hb h2, key _ _ hc h3⟩
  · exact Or.inr (Or.inl ⟨key _ _ hd h1, key _ _ he h2, key _ _ hf h3⟩)
  · exact Or.inr (Or.inr (Or.inl ⟨key _ _ hg h1, key _ _ hh h2, key _ _ hi h3⟩))
  · exact Or.inr (Or.inr (Or.inr (Or.inl ⟨key _ _ ha h1, key _ _ hd h2, key _ _ hg h3⟩)))
  · exact Or.inr (Or.inr (Or.inr (Or.inr (Or.inl
      ⟨key _ _ hb h1, key _ _ he h2, key _ _ hh h3⟩))))
  · exact Or.inr (Or.inr (Or.inr (Or.inr (Or.inr (Or.inl
      ⟨key _ _ hc h1, key _ _ hf h2, key _ _ hi h3⟩)))))
  · exact Or.inr (Or.inr (Or.inr (Or.inr (Or.inr (Or.inr (Or.inl
      ⟨key _ _ ha h1, key _ _ he h2, key _ _ hi h3⟩))))))
  · exact Or.inr (Or.inr (Or.inr (Or.inr (Or.inr (Or.inr (Or.inr
      ⟨key _ _ hc h1, key _ _ he h2, key _ _ hg h3⟩))))))

theorem endConsistent_initial : EndConsistent TicTacToe.initial :=
  ⟨⟨"", "", "", "", "", "", "", "", "", rfl⟩, Or.inl rfl,
    fun _ => ⟨by decide, by decide, by decide⟩, fun h => absurd h (by decide)⟩

theorem endConsistent_onCellClick (s : TicTacToe) (row col : Nat) (h : EndConsistent s) :
    EndConsistent (onCellClick s row col) := by
  rcases onCellClick_cases s row col with e | ⟨hgo, hcell, hboard, hbranch⟩
  · rw [e]; exact h
  · obtain ⟨⟨a, b, c, d, e, f, g, h', i, hshape⟩, hmark, hon, _⟩ := h
    obtain ⟨hnx, hno, _⟩ := hon hgo
    rw [hshape] at hcell hnx hno
    obtain ⟨a', b', c', d', e', f', g', h'', i', hset, ha, hb, hc, hd, he, hf, hg, hh, hi⟩ :=
      setCell_cells a b c d e f g h' i row col "" s.currentPlayer hcell
    rw [hshape, hset] at hboard hbranch
    have hother : ∀ q : String, s.currentPlayer ≠ q →
        checkWinner [[a, b, c], [d, e, f], [g, h', i]] q = false →
        checkWinner [[a', b', c'], [d', e', f'], [g', h'', i']] q = false := by
      intro q hq hold
      cases hnew : checkWinner [[a', b', c'], [d', e', f'], [g', h'', i']] q with
      | false => rfl
      | true =>
        rw [checkWinner_of_cells hq ha hb hc hd he hf hg hh hi hnew] at hold
        exact absurd hold (by decide)
    have hnotboth : ¬ (checkWinner [[a', b', c'], [d', e', f'], [g', h'', i']] "X" = true ∧
        checkWinner [[a', b', c'], [d', e', f'], [g', h'', i']] "O" = true) := by
      rintro ⟨hx, ho⟩
      rcases hmark with hp | hp
      · rw [hother "O" (by rw [hp]; decide) hno] at ho
        exact absurd ho (by decide)
      · rw [hother "X" (by rw [hp]; decide) hnx] at hx
        exact absurd hx (by decide)
    refine ⟨⟨a', b', c', d', e', f', g', h'', i', hboard⟩, ?_, ?_, ?_⟩
    · rcases hbranch with ⟨_, hp, _⟩ | ⟨_, _, hp, _⟩ | ⟨_, _, hp, _⟩
      · rw [hp]; exact hmark
      · rw [hp]; exact hmark
      · rw [hp]
        rcases hmark with hm | hm <;> simp [hm]
    · intro hfalse
      rw [hboard]
      rcases hbranch with ⟨_, _, hover⟩ | ⟨_, _, _, hover⟩ | ⟨hw, hfull, _, _⟩
      · rw [hover] at hfalse; exact absurd hfalse (by decide)
      · rw [hover] at hfalse; exact absurd hfalse (by decide)
      · rcases hmark with hp | hp
        · rw [hp] at hw
          exact ⟨hw, hother "O" (by rw [hp]; decide) hno, hfull⟩
        · rw [hp] at hw
          exact ⟨hother "X" (by rw [hp]; decide) hnx, hw, hfull⟩
    · intro htrue
      rw [hboard]
      refine ⟨?_, hnotboth⟩
      rcases hbranch with ⟨hw, _, _⟩ | ⟨_, hfull, _, _⟩ | ⟨_, _, _, hover⟩
      · rcases hmark with hp | hp
        · rw [hp] at hw; exact Or.inl hw
        · rw [hp] at hw; exact Or.inr (Or.inl hw)
      · exact Or.inr (Or.inr hfull)
      · rw [hover] at htrue
        exact absurd htrue (by decide)

theorem endConsistent_clickAll (clicks : List (Nat × Nat)) (s : TicTacToe)
    (h : EndConsistent s) : EndConsistent (clickAll s clicks) := by
  induction clicks generalizing s with
  | nil => exact h
  | cons c cs ih => exact ih _ (endConsistent_onCellClick s c.1 c.2 h)

/-- C19: in every state reached from the initial state by a sequence of clicks
(on cells of the board or not), `checkWinner('X')` and `checkWinner('O')` are
not both true, and `gameOver` is true exactly when `checkWinner` is true for `X`
or for `O`, or `isBoardFull()` is true. -/
theorem clickAll_end_consistent (clicks : List (Nat × Nat)) :
    ¬ (checkWinner (clickAll TicTacToe.initial clicks).board "X" = true ∧
        checkWinner (clickAll TicTacToe.initial clicks).board "O" = true) ∧
    ((clickAll TicTacToe.initial clicks).gameOver = true ↔
      (checkWinner (clickAll TicTacToe.initial clicks).board "X" = true ∨
        checkWinner (clickAll TicTacToe.initial clicks).board "O" = true ∨
        isBoardFull (clickAll TicTacToe.initial clicks).board = true)) := by
  obtain ⟨_, _, hon, hover⟩ := endConsistent_clickAll clicks _ endConsistent_initial
  cases hgo : (clickAll TicTacToe.initial clicks).gameOver with
  | false =>
    obtain ⟨hx, ho, hf⟩ := hon hgo
    rw [hx, ho, hf]
    simp
  | true =>
    obtain ⟨hsome, hboth⟩ := hover hgo
    exact ⟨hboth, fun _ => hsome, fun _ => rfl⟩

/-! ## Repeated keys in `parseDSL` -/

theorem getOwn_setOwn_ne (config : Config) (key value key' : Str) (h : key ≠ key') :
    getOwn (setOwn config key value) key' = getOwn config key' := by
  induction config with
  | nil => simp [setOwn, getOwn, h]
  | cons e rest ih =>
    obtain ⟨k, v⟩ := e
    simp only [getOwn] at ih
    by_cases hk : k = key
    · subst hk
      simp [setOwn, getOwn, List.find?_cons, h]
    · by_cases hk' : k = key'
      · subst hk'
        simp [setOwn, hk, getOwn, List.find?_cons]
      · simp [setOwn, hk, getOwn, List.find?_cons, hk', ih]

theorem setOwn_keys_of_mem (config : Config) (key value : Str)
    (h : key ∈ config.map Prod.fst) :
    (setOwn config key value).map Prod.fst = config.map Prod.fst := by
  induction config with
  | nil => simp at h
  | cons e rest ih =>
    obtain ⟨k, v⟩ := e
    by_cases hk : k = key
    · simp [setOwn, hk]
    · have hr : key ∈ rest.map Prod.fst := by
        simp only [List.map_cons, List.mem_cons] at h
        rcases h with e | e
        · exact absurd e.symm hk
        · exact e
      simp [setOwn, hk, ih hr]

theorem assign_keys_nodup (config : Config) (key value : Str)
    (h : (config.map Prod.fst).Nodup) : ((assign config key value).map Prod.fst).Nodup := by
  unfold assign
  split_ifs
  · exact h
  · by_cases hk : key ∈ config.map Prod.fst
    · rw [setOwn_keys_of_mem _ _ _ hk]; exact h
    · rw [setOwn_of_not_mem _ _ _ hk, List.map_append, List.nodup_append]
      refine ⟨h, by simp, ?_⟩
      intro a ha hb
      simp only [List.map_cons, List.map_nil, List.mem_singleton] at hb
      exact hk (hb ▸ ha)

theorem parseLine_keys_nodup (config : Config) (line : Str)
    (h : (config.map Prod.fst).Nodup) : ((parseLine config line).map Prod.fst).Nodup := by
  rw [parseLine_eq]
  split_ifs
  · exact h
  · exact assign_keys_nodup _ _ _ h

theorem foldl_parseLine_keys_nodup (ls : List Str) (config : Config)
    (h : (config.map Prod.fst).Nodup) : ((ls.foldl parseLine config).map Prod.fst).Nodup := by
  induction ls generalizing config with
  | nil => exact h
  | cons l ls ih => exact ih _ (parseLine_keys_nodup config l h)

/-- The mapping `parseDSL` returns holds every key once. -/
theorem parseDSL_keys_nodup (text : Str) : ((parseDSL text).map Prod.fst).Nodup :=
  foldl_parseLine_keys_nodup _ [] List.nodup_nil

theorem getOwn_parseLine (config : Config) (line : Str) (key : Str) :
    getOwn (parseLine config line) key =
      if isSkipped line = false ∧ lineKey line = key ∧ key ≠ protoKey then some (lineValue line)
      else getOwn config key := by
  rw [parseLine_eq]
  by_cases hs : isSkipped line = true
  · simp [hs]
  · have hs' : isSkipped line = false := by simpa using hs
    simp only [hs', Bool.false_eq_true, if_false, true_and]
    unfold assign
    by_cases hp : lineKey line = protoKey
    · rw [if_pos hp]
      have : ¬ (lineKey line = key ∧ key ≠ protoKey) := fun h => h.2 (h.1 ▸ hp)
      rw [if_neg this]
    · rw [if_neg hp]
      by_cases hk : lineKey line = key
      · subst hk
        rw [if_pos ⟨rfl, hp⟩]
        exact getOwn_setOwn _ _ _
      · have : ¬ (lineKey line = key ∧ key ≠ protoKey) := fun h => hk h.1
        rw [if_neg this]
        exact getOwn_setOwn_ne _ _ _ _ hk

theorem getOwn_foldl_of_no_later (post : List Str) (config : Config) (key value : Str)
    (hlast : ∀ l' ∈ post, isSkipped l' = false → lineKey l' ≠ key)
    (hstart : getOwn config key = some value) :
    getOwn (post.foldl parseLine config) key = some value := by
  induction post generalizing config with
  | nil => exact hstart
  | cons l' post ih =>
    refine ih (parseLine config l') (fun x hx => hlast x (List.mem_cons_of_mem _ hx)) ?_
    rw [getOwn_parseLine]
    by_cases hs : isSkipped l' = false ∧ lineKey l' = key ∧ key ≠ protoKey
    · exact absurd hs.2.1 (hlast l' (List.mem_cons_self _ _) hs.1)
    · rw [if_neg hs]; exact hstart

/-- The last kept line of a key decides its value: when the line `l` of the
text is kept, its key is not `__proto__`, and no kept line after it has the same
key, the mapping holds the trimmed value of `l` under that key. -/
theorem parseDSL_last_line_wins (text : Str) (pre post : List Str) (l : Str)
    (hlines : split '\n' text = pre ++ l :: post) (hkept : isSkipped l = false)
    (hproto : lineKey l ≠ protoKey)
    (hlast : ∀ l' ∈ post, isSkipped l' = false → lineKey l' ≠ lineKey l) :
    getOwn (parseDSL text) (lineKey l) = some (lineValue l) := by
  unfold parseDSL
  rw [hlines, List.foldl_append, List.foldl_cons]
  apply getOwn_foldl_of_no_later post _ _ _ hlast
  rw [getOwn_parseLine, if_pos ⟨hkept, rfl, hproto⟩]

theorem split_append_sep (sep : Char) (a b : Str) :
    split sep (a ++ sep :: b) = split sep a ++ split sep b := by
  induction a with
  | nil => simp [split]
  | cons c cs ih =>
    by_cases hc : c = sep
    · simp [split, hc, ih]
    · cases hsp : split sep cs with
      | nil => exact absurd hsp (split_ne_nil sep cs)
      | cons p ps =>
        rw [hsp] at ih
        simp [split, hc, ih, hsp]

theorem getOwn_foldl_parseLine (ls : List Str) (config : Config) (key : Str) :
    getOwn (ls.foldl parseLine config) key = overridden config (ls.foldl parseLine []) key := by
  induction ls generalizing config with
  | nil => simp [overridden, getOwn]
  | cons l ls ih =>
    rw [List.foldl_cons, List.foldl_cons, ih (parseLine config l)]
    unfold overridden
    rw [ih (parseLine [] l)]
    unfold overridden
    cases hrest : getOwn (ls.foldl parseLine []) key with
    | some v => rfl
    | none =>
      simp only []
      rw [getOwn_parseLine, getOwn_parseLine]
      split_ifs
      · rfl
      · simp [getOwn]

/-- The mapping of two texts joined by a newline is the mapping of the first
overridden by the mapping of the second, key by key. -/
theorem parseDSL_append (a b : Str) (key : Str) :
    getOwn (parseDSL (a ++ '\n' :: b)) key = overridden (parseDSL a) (parseDSL b) key := by
  unfold parseDSL
  rw [split_append_sep, List.foldl_append]
  exact getOwn_foldl_parseLine _ _ _

/-- C2 fails on the key `__proto__`: the line `__proto__: 1` is kept (its
trimmed text is not empty, does not start with `#` and contains a colon), the
loop body computes the key `__proto__` and the value `1`, and the assignment
`config[key] = value` stores nothing: the mapping holds no key and no value for
the line, where the claim says the key and the value are stored. -/
theorem parseLine_proto_key_not_stored :
    trim "__proto__: 1".toList ≠ [] ∧
    startsWith '#' (trim "__proto__: 1".toList) = false ∧
    ':' ∈ trim "__proto__: 1".toList ∧
    trim ((split ':' (trim "__proto__: 1".toList)).headD []) = "__proto__".toList ∧
    trim (join ':' ((split ':' (trim "__proto__: 1".toList)).drop 1)) = "1".toList ∧
    parseLine [] "__proto__: 1".toList = [] ∧
    getOwn (parseLine [] "__proto__: 1".toList) "__proto__".toList = none ∧
    parseDSL "__proto__: 1".toList = [] := by
  decide

/-- C17 fails on the key `__proto__`: the text has two kept lines with that
trimmed key, the last with the trimmed value `2`, and the mapping `parseDSL`
returns has no entry at all; the claim asks for one entry, with the value `2`. -/
theorem parseDSL_proto_key_dropped :
    split '\n' "__proto__: 1\n__proto__: 2".toList =
      ["__proto__: 1".toList, "__proto__: 2".toList] ∧
    isSkipped "__proto__: 1".toList = false ∧ isSkipped "__proto__: 2".toList = false ∧
    lineKey "__proto__: 1".toList = "__proto__".toList ∧
    lineKey "__proto__: 2".toList = "__proto__".toList ∧
    lineValue "__proto__: 2".toList = "2".toList ∧
    parseDSL "__proto__: 1\n__proto__: 2".toList = [] ∧
    getOwn (parseDSL "__proto__: 1\n__proto__: 2".toList) "__proto__".toList = none := by
  decide

end AiArcade
